import Mathlib

/-!
# Verification of the sliding-puzzle engine and its peer-sync controller

Shallow embedding of the core logic of the multiplayer sliding-tile puzzle:

* `PuzzleModel` (source: `src/models/PuzzleModel.ts`, provided as
  `src/unnamed/part_002`): board representation, move legality
  (`canMoveTile`), move execution (`moveTile` with its `shiftRow` /
  `shiftColumn` line shifts), `getAffectedTiles`, `reset`, `shuffle`
  (with `moveAdjacentTile` / `getPossibleMoves`), `isSolved`,
  `getTileValue`, `isValidPosition`.
* `MultiplayerGameController` (source:
  `src/src/controllers/MultiplayerGameController.ts`) together with the
  relevant part of its base class `GameController`
  (`src/src/controllers/GameController.ts`): the tile-click /
  received-move handlers, GameStart installation
  (`handleReceivedGameStart`, `findEmptyPosition`) and the messages sent
  to the peer.

JavaScript `number[][]` boards are embedded as `List (List Nat)` (cell
values are the tile numbers `0 .. n²-1`); the coordinates exchanged with
callers and with the network are arbitrary integers, embedded as `Int`.
Mutation is embedded as explicit state passing.  JS `for` loops that run
a statically known number of iterations are embedded as structural
recursion on that iteration count.
-/

namespace SlidingPuzzle

/-- A puzzle board: a list of rows, each a list of cell values. -/
abbrev Board := List (List Nat)

/-- Read `board[r][c]` for `Nat` indices; out-of-range reads give the
JS-`undefined` placeholder `0` (all internal call sites in the source are
guarded by `isValidPosition`, so the placeholder is never observable). -/
def getCellN (b : Board) (r c : Nat) : Nat :=
  (b.getD r []).getD c 0

/-- Write `board[r][c] := v` for `Nat` indices (no-op out of range). -/
def setCellN (b : Board) (r c : Nat) (v : Nat) : Board :=
  b.set r ((b.getD r []).set c v)

/-- Read `board[r][c]` for the `Int` coordinates the source passes around. -/
def getCell (b : Board) (r c : Int) : Nat :=
  if 0 ≤ r ∧ 0 ≤ c then getCellN b r.toNat c.toNat else 0

/-- Write `board[r][c] := v` for `Int` coordinates (no-op out of range). -/
def setCell (b : Board) (r c : Int) (v : Nat) : Board :=
  if 0 ≤ r ∧ 0 ≤ c then setCellN b r.toNat c.toNat v else b

/-- The state of `PuzzleModel`: the (construction-clamped) dimension, the
current board, and the cached coordinates of the empty (0) cell. -/
structure PuzzleModel where
  dimension : Nat
  board : Board
  emptyPosition : Int × Int
deriving DecidableEq, Repr

/-- `createSolvedBoard`: values `1 .. n²-1` row-major with `0` in the last
cell.  The source fills with a running counter `value++`, whose value at
cell `(r, c)` is `r * n + c + 1`. -/
def createSolvedBoard (n : Nat) : Board :=
  (List.range n).map fun r =>
    (List.range n).map fun c =>
      if r = n - 1 ∧ c = n - 1 then 0 else r * n + c + 1

/-- The solved model at dimension `n`: board `createSolvedBoard n`, empty
cell bottom-right. -/
def solvedModel (n : Nat) : PuzzleModel :=
  { dimension := n
    board := createSolvedBoard n
    emptyPosition := ((n : Int) - 1, (n : Int) - 1) }

/-- The `PuzzleModel` constructor: clamps the requested dimension to
`[2, 8]` and starts from the solved board with the empty cell at the
bottom right. -/
def PuzzleModel.init (d : Int) : PuzzleModel :=
  solvedModel (max 2 (min 8 d)).toNat

/-- `isValidPosition(row, col)`: both coordinates in `[0, dimension)`. -/
def isValidPosition (m : PuzzleModel) (r c : Int) : Bool :=
  decide (0 ≤ r ∧ r < (m.dimension : Int) ∧ 0 ≤ c ∧ c < (m.dimension : Int))

/-- `getTileValue(row, col)`: the cell value, or `-1` for an invalid
position. -/
def getTileValue (m : PuzzleModel) (r c : Int) : Int :=
  if isValidPosition m r c then (getCell m.board r c : Int) else -1

/-- `canMoveTile(row, col)`: valid position sharing a row or a column with
the empty cell.  (The source does not exclude the empty cell itself.) -/
def canMoveTile (m : PuzzleModel) (r c : Int) : Bool :=
  if !isValidPosition m r c then false
  else decide (r = m.emptyPosition.1 ∨ c = m.emptyPosition.2)

/-- `getAffectedTiles(row, col)`: positions strictly between the clicked
cell and the empty cell along the shared line, pushed in increasing index
order (`for (x = min+1; x < max; x++)`). -/
def getAffectedTiles (m : PuzzleModel) (r c : Int) : List (Int × Int) :=
  if !canMoveTile m r c then []
  else
    let er := m.emptyPosition.1
    let ec := m.emptyPosition.2
    if r = er then
      let s := min c ec + 1
      let e := max c ec
      (List.range (e - s).toNat).map fun (i : Nat) => (r, s + (i : Int))
    else if c = ec then
      let s := min r er + 1
      let e := max r er
      (List.range (e - s).toNat).map fun (i : Nat) => (s + (i : Int), c)
    else []

/-- The body of `shiftRow`'s loop
`for (col = emptyCol; col !== clickedCol; col += direction)
   board[row][col] = board[row][col + direction]`,
embedded by recursion on the iteration count (the loop runs exactly
`|clickedCol - emptyCol|` times since `direction` is the sign of
`clickedCol - emptyCol`). -/
def shiftRowLoop (row d : Int) : Nat → Int → Board → Board
  | 0, _, b => b
  | k + 1, col, b =>
      shiftRowLoop row d k (col + d) (setCell b row col (getCell b row (col + d)))

/-- `shiftRow(row, clickedCol)`: slide the tiles of `row` between the
empty cell and the clicked cell one step toward the empty cell, put the
empty cell at the clicked column, update `emptyPosition`. -/
def shiftRow (m : PuzzleModel) (row clickedCol : Int) : PuzzleModel :=
  let emptyCol := m.emptyPosition.2
  let d : Int := if emptyCol < clickedCol then 1 else -1
  let b1 := shiftRowLoop row d (clickedCol - emptyCol).natAbs emptyCol m.board
  let b2 := setCell b1 row clickedCol 0
  { m with board := b2, emptyPosition := (row, clickedCol) }

/-- The body of `shiftColumn`'s loop, embedded like `shiftRowLoop`. -/
def shiftColumnLoop (col d : Int) : Nat → Int → Board → Board
  | 0, _, b => b
  | k + 1, row, b =>
      shiftColumnLoop col d k (row + d) (setCell b row col (getCell b (row + d) col))

/-- `shiftColumn(col, clickedRow)`: the vertical counterpart of
`shiftRow`. -/
def shiftColumn (m : PuzzleModel) (col clickedRow : Int) : PuzzleModel :=
  let emptyRow := m.emptyPosition.1
  let d : Int := if emptyRow < clickedRow then 1 else -1
  let b1 := shiftColumnLoop col d (clickedRow - emptyRow).natAbs emptyRow m.board
  let b2 := setCell b1 clickedRow col 0
  { m with board := b2, emptyPosition := (clickedRow, col) }

/-- `moveTile(row, col)`: returns the success flag together with the
updated model (mutation made explicit). -/
def moveTile (m : PuzzleModel) (r c : Int) : Bool × PuzzleModel :=
  if !canMoveTile m r c then (false, m)
  else if r = m.emptyPosition.1 then (true, shiftRow m r c)
  else if c = m.emptyPosition.2 then (true, shiftColumn m c r)
  else (false, m)

/-- `isSolved()`: every cell equals the stored solution
(`createSolvedBoard dimension`, immutable after construction). -/
def isSolved (m : PuzzleModel) : Bool :=
  (List.range m.dimension).all fun r =>
    (List.range m.dimension).all fun c =>
      getCellN m.board r c == getCellN (createSolvedBoard m.dimension) r c

/-- `reset()`: back to the solved board (the stored `solution` is exactly
`createSolvedBoard dimension`), empty cell bottom-right. -/
def reset (m : PuzzleModel) : PuzzleModel :=
  solvedModel m.dimension

/-- `getPossibleMoves()`: the in-bounds neighbours of the empty cell, in
the source's direction order up, down, left, right. -/
def getPossibleMoves (m : PuzzleModel) : List (Int × Int) :=
  ([((-1 : Int), (0 : Int)), (1, 0), (0, -1), (0, 1)]).filterMap fun drc =>
    let nr := m.emptyPosition.1 + drc.1
    let nc := m.emptyPosition.2 + drc.2
    if isValidPosition m nr nc then some (nr, nc) else none

/-- `moveAdjacentTile(row, col)`: swap the empty cell with an adjacent
tile (used only by `shuffle`). -/
def moveAdjacentTile (m : PuzzleModel) (r c : Int) : Bool × PuzzleModel :=
  if !isValidPosition m r c then (false, m)
  else
    let er := m.emptyPosition.1
    let ec := m.emptyPosition.2
    if ((r - er).natAbs = 1 ∧ c = ec) ∨ ((c - ec).natAbs = 1 ∧ r = er) then
      let b1 := setCell m.board er ec (getCell m.board r c)
      let b2 := setCell b1 r c 0
      (true, { m with board := b2, emptyPosition := (r, c) })
    else (false, m)

/-- One shuffle iteration: pick `possibleMoves[floor(random * length)]`
and apply `moveAdjacentTile` to it; the random draw is embedded as an
arbitrary natural taken modulo the list length (the JS expression always
yields an index in `[0, length)`, and `getPossibleMoves` is never empty
for a constructed model). -/
def shuffleSteps (f : Nat → Nat) : Nat → PuzzleModel → PuzzleModel
  | 0, m => m
  | k + 1, m =>
      let pm := getPossibleMoves m
      let m' := match pm.get? (f 0 % pm.length) with
        | some rc => (moveAdjacentTile m rc.1 rc.2).2
        | none => m
      shuffleSteps (fun i => f (i + 1)) k m'

/-- `shuffle(moves = 200)`: `reset()`, then
`max(moves, dimension² * 10)` random adjacent moves, recursing while the
result is solved.  The unbounded recursion of the source is embedded with
an explicit recursion budget `fuel`; `none` models the recursion not
terminating within that budget. -/
def shuffleFuel : Nat → (Nat → Nat) → Nat → PuzzleModel → Option PuzzleModel
  | 0, _, _, _ => none
  | fuel + 1, f, moves, m =>
      let m0 := reset m
      let k := max moves (m.dimension * m.dimension * 10)
      let m1 := shuffleSteps f k m0
      if isSolved m1 then shuffleFuel fuel (fun i => f (i + k)) k m1
      else some m1

/-- Boards reachable from the solved model of dimension `n` by the
engine's own `moveAdjacentTile` operation. -/
inductive ReachableAdj (n : Nat) : PuzzleModel → Prop where
  | base : ReachableAdj n (solvedModel n)
  | step (m : PuzzleModel) (r c : Int) :
      ReachableAdj n m → ReachableAdj n (moveAdjacentTile m r c).2

/-- The Board invariant of the spec: an `n × n` grid whose values are a
permutation of `0 .. n²-1`, with the cached `emptyPosition` in bounds and
pointing at the (unique) 0 cell. -/
def WF (m : PuzzleModel) : Prop :=
  m.board.length = m.dimension ∧
  (∀ row ∈ m.board, row.length = m.dimension) ∧
  List.Perm m.board.flatten (List.range (m.dimension * m.dimension)) ∧
  0 ≤ m.emptyPosition.1 ∧ m.emptyPosition.1 < (m.dimension : Int) ∧
  0 ≤ m.emptyPosition.2 ∧ m.emptyPosition.2 < (m.dimension : Int) ∧
  getCell m.board m.emptyPosition.1 m.emptyPosition.2 = 0

instance (m : PuzzleModel) : Decidable (WF m) := by
  unfold WF; infer_instance

/-- Replaying a MoveMade sequence: fold the engine's `moveTile` over the
received `(row, col)` pairs. -/
def applyMoves (m : PuzzleModel) (ms : List (Int × Int)) : PuzzleModel :=
  ms.foldl (fun s rc => (moveTile s rc.1 rc.2).2) m

/-! ## The multiplayer controller

`MultiplayerGameController` extends `GameController`; the state below
keeps the fields those two classes mutate in the handlers the claims are
about, plus the list of messages handed to `PeerService` for
transmission (the transport itself is an external collaborator). -/

/-- Messages the controller sends to the peer in the steady state. -/
inductive PeerMsg where
  | moveMade (row col : Int)
  | gameWon
deriving DecidableEq, Repr

/-- Controller state: `isMultiplayerActive`, the `receivedMove` echo
flag, `GameController`'s `isMoving` animation lock and `moveCount`, the
owned `PuzzleModel` (nullable), and the outbound messages. -/
structure MPController where
  isMultiplayerActive : Bool
  receivedMove : Bool
  isMoving : Bool
  moveCount : Nat
  model : Option PuzzleModel
  sent : List PeerMsg
deriving DecidableEq, Repr

/-- `GameController.handleTileClick`: no-op without a model or while the
animation lock is held; otherwise applies a legal move and bumps the move
counter.  (`isMoving` is cleared later by an animation timeout, outside
this synchronous step; view updates have no game-state effect.) -/
def superHandleTileClick (s : MPController) (r c : Int) : MPController :=
  match s.model with
  | none => s
  | some m =>
      if s.isMoving then s
      else if canMoveTile m r c then
        { s with
            isMoving := true
            model := some (moveTile m r c).2
            moveCount := s.moveCount + 1 }
      else s

/-- `MultiplayerGameController.handleTileClick`: when the `receivedMove`
flag is set, clear it and return; otherwise run the base handler and, in
an active session, transmit the move (the source re-checks `canMoveTile`
on the post-move model) and a win notification if now solved. -/
def mpHandleTileClick (s : MPController) (r c : Int) : MPController :=
  if s.isMultiplayerActive && s.receivedMove then
    { s with receivedMove := false }
  else
    let s1 := superHandleTileClick s r c
    if s1.isMultiplayerActive &&
        (match s1.model with | some m => canMoveTile m r c | none => false) then
      let s2 := { s1 with sent := s1.sent ++ [PeerMsg.moveMade r c] }
      if (match s2.model with | some m => isSolved m | none => false) then
        { s2 with sent := s2.sent ++ [PeerMsg.gameWon] }
      else s2
    else s1

/-- `MultiplayerGameController.handleReceivedMove`: ignore when inactive
or without a model; otherwise set the `receivedMove` flag and call
`handleTileClick` (the overridden one) with the received coordinates. -/
def handleReceivedMove (s : MPController) (r c : Int) : MPController :=
  if !s.isMultiplayerActive || s.model.isNone then s
  else mpHandleTileClick { s with receivedMove := true } r c

/-- The GameStart payload the host transmits: `getBoard()`, a deep copy
of the grid (copying is the identity in the pure embedding). -/
def serializeBoard (m : PuzzleModel) : Board := m.board

/-- `MultiplayerGameController.findEmptyPosition`: scan row-major
(`row < board.length`, `col < board[0].length`) for the first 0 cell,
defaulting to the bottom-right cell when none is found. -/
def findEmptyPosition (board : Board) : Int × Int :=
  match (List.range board.length).findSome? (fun r =>
      (List.range (board.headD []).length).findSome? (fun c =>
        if (board.getD r []).getD c 0 = 0 then some ((r : Int), (c : Int))
        else none)) with
  | some p => p
  | none => ((board.length : Int) - 1, ((board.headD []).length : Int) - 1)

/-- `MultiplayerGameController.handleReceivedGameStart` (the game-state
part): construct a `PuzzleModel` at the received dimension, then
overwrite its board with the received grid and its `emptyPosition` with
`findEmptyPosition` of that grid.  No validation is performed. -/
def handleReceivedGameStart (dimension : Int) (board : Board) : PuzzleModel :=
  let model := PuzzleModel.init dimension
  { model with board := board, emptyPosition := findEmptyPosition board }

/-- A connected session about to replay a remote move: multiplayer
active, no move being animated, a fresh 3×3 engine installed. -/
def ctrl0 : MPController :=
  { isMultiplayerActive := true
    receivedMove := false
    isMoving := false
    moveCount := 0
    model := some (PuzzleModel.init 3)
    sent := [] }

/-- A 3×3 GameStart grid with no zero cell (hence not a permutation of
`0..8`): malformed in the sense of the spec's MalformedState taxonomy. -/
def malformedGrid : Board := [[1, 2, 3], [4, 5, 6], [7, 8, 9]]

/-- The state `shuffle` reaches on a 2×2 engine with the all-zeros random
stream and `moves = 41` (41 odd adjacent swaps, ending unsolved). -/
def shuffleWitnessResult : PuzzleModel :=
  { dimension := 2, board := [[1, 0], [3, 2]], emptyPosition := (0, 1) }

/-! ### Proof-side reformulations of the shift loops

`shiftRowLoop` and `shiftColumnLoop` are both instances of one generic
pattern: walk a list from index `i` rightward (or leftward) for `k`
steps, updating each visited element from its not-yet-visited neighbour.
For the row loop the list is the row and the update ignores the old
element; for the column loop the list is the board (a list of rows) and
the update writes one cell of the row from the neighbouring row.  The
shift direction of the line in both cases follows from these. -/

/-- Rightward chain update: for `k` steps starting at `i`, replace
`l[i] := g l[i] l[i+1]` and move right. -/
def chainLoopR {α : Type} (g : α → α → α) (d : α) : List α → Nat → Nat → List α
  | l, _, 0 => l
  | l, i, k + 1 =>
      chainLoopR g d (l.set i (g (l.getD i d) (l.getD (i + 1) d))) (i + 1) k

/-- Leftward chain update: for `k` steps starting at `i`, replace
`l[i] := g l[i] l[i-1]` and move left. -/
def chainLoopL {α : Type} (g : α → α → α) (d : α) : List α → Nat → Nat → List α
  | l, _, 0 => l
  | l, i, k + 1 =>
      chainLoopL g d (l.set i (g (l.getD i d) (l.getD (i - 1) d))) (i - 1) k

/-- Downward column block: starting from the old empty row `R`, each row
pulls the column-`c` value of the row after it; the last row gets 0. -/
def chainPull (c : Nat) : List Nat → List (List Nat) → List (List Nat)
  | R, [] => [R.set c 0]
  | R, S :: T => R.set c (S.getD c 0) :: chainPull c S T

/-- Upward column block tail: each row takes the column-`c` value of the
row before it (`R` is the predecessor of the first row of the list). -/
def chainWrite (c : Nat) : List Nat → List (List Nat) → List (List Nat)
  | _, [] => []
  | R, S :: T => S.set c (R.getD c 0) :: chainWrite c S T

/-- The step one cell takes toward the target of a move (the source's
`direction`: `+1` when the empty cell sits below/left of the target). -/
def stepToward (a b : Int) : Int := if a < b then 1 else -1

/-- `q` lies on the half-open segment from `a` (inclusive, the old empty
cell) to `b` (exclusive, the move target). -/
def onSegment (a b q : Int) : Prop := (a ≤ q ∧ q < b) ∨ (b < q ∧ q ≤ a)

instance (a b q : Int) : Decidable (onSegment a b q) := by
  unfold onSegment; infer_instance

/-- The spec of a successful move at `(r, c)`: success is reported, the
dimension is kept, `emptyPosition` becomes exactly the applied target,
the Board invariant is preserved, and cell-by-cell: the target holds 0,
every cell on the line from the old empty cell (inclusive) toward the
target (exclusive) takes the value its neighbour one step closer to the
target had — i.e. each tile strictly between, and the clicked tile, move
one step toward the old empty cell — and every other cell is
unchanged. -/
def MoveSpec (m : PuzzleModel) (r c : Int) : Prop :=
  (moveTile m r c).1 = true ∧
  (moveTile m r c).2.dimension = m.dimension ∧
  (moveTile m r c).2.emptyPosition = (r, c) ∧
  WF (moveTile m r c).2 ∧
  (∀ x y : Int, isValidPosition m x y = true →
    getCell (moveTile m r c).2.board x y =
      (if x = r ∧ y = c then 0
       else if x = r ∧ r = m.emptyPosition.1 ∧
           onSegment m.emptyPosition.2 c y then
         getCell m.board x (y + stepToward m.emptyPosition.2 c)
       else if y = c ∧ c = m.emptyPosition.2 ∧
           onSegment m.emptyPosition.1 r x then
         getCell m.board (x + stepToward m.emptyPosition.1 r) y
       else getCell m.board x y))

/-! ## Basic lemmas -/

/-- Writing back the value already stored at a valid index is the
identity. -/
theorem set_getD_self {α : Type} (l : List α) (i : Nat) (d : α)
    (h : i < l.length) : l.set i (l.getD i d) = l := by
  induction l generalizing i with
  | nil => simp at h
  | cons a t ih =>
      cases i with
      | zero => simp
      | succ j =>
          simp only [List.length_cons, Nat.succ_lt_succ_iff] at h
          simp only [List.getD_cons_succ, List.set_cons_succ]
          rw [ih j h]

/-- `canMoveTile` in propositional form. -/
theorem canMoveTile_iff (m : PuzzleModel) (r c : Int) :
    canMoveTile m r c = true ↔
      ((0 ≤ r ∧ r < (m.dimension : Int) ∧ 0 ≤ c ∧ c < (m.dimension : Int)) ∧
        (r = m.emptyPosition.1 ∨ c = m.emptyPosition.2)) := by
  by_cases hv : (0 ≤ r ∧ r < (m.dimension : Int) ∧ 0 ≤ c ∧ c < (m.dimension : Int)) <;>
    simp [canMoveTile, isValidPosition, hv]

/-- `isValidPosition` in propositional form. -/
theorem isValidPosition_iff (m : PuzzleModel) (r c : Int) :
    isValidPosition m r c = true ↔
      (0 ≤ r ∧ r < (m.dimension : Int) ∧ 0 ≤ c ∧ c < (m.dimension : Int)) := by
  simp [isValidPosition]

/-! ## C2: move legality -/

/-- C2 (counterexample): on a fresh 3×3 engine the empty cell is at
`(2, 2)`, yet `canMoveTile (2, 2)` returns `true` — the source checks
only row/column sharing and never excludes the empty cell itself, so the
claimed "and pos ≠ emptyPosition" conjunct is not part of the
implementation. -/
theorem C2_canMoveTile_empty_cell_cex :
    canMoveTile (PuzzleModel.init 3) 2 2 = true ∧
    (PuzzleModel.init 3).emptyPosition = (2, 2) := by decide

/-- C2 (amended): `canMoveTile(pos)` returns `true` iff `pos` is within
the board bounds and shares a row or a column with `emptyPosition` — with
no exclusion of `pos = emptyPosition` itself. -/
theorem C2_canMoveTile_spec (m : PuzzleModel) (r c : Int) :
    canMoveTile m r c = true ↔
      ((0 ≤ r ∧ r < (m.dimension : Int) ∧ 0 ≤ c ∧ c < (m.dimension : Int)) ∧
        (r = m.emptyPosition.1 ∨ c = m.emptyPosition.2)) :=
  canMoveTile_iff m r c

/-! ## C3: illegal moves are no-ops -/

/-- C3 (counterexample): clicking the empty cell itself — an illegal
target per the claim — makes `moveTile` report success (`true`), not
failure. -/
theorem C3_moveTile_empty_cell_reports_success_cex :
    (moveTile (PuzzleModel.init 3) 2 2).1 = true := by decide

/-- C3 (amended): for a well-formed engine and any target that is not a
strictly legal move (out of bounds, sharing neither row nor column with
the empty cell, or equal to the empty cell), `moveTile` leaves the model
— board and `emptyPosition` — unchanged and, being a total function,
never throws; it reports failure except when the target is exactly the
empty cell, where it reports success while still changing nothing. -/
theorem C3_moveTile_illegal_noop (m : PuzzleModel) (r c : Int)
    (hwf : WF m)
    (hill : ¬ (canMoveTile m r c = true ∧ (r, c) ≠ m.emptyPosition)) :
    (moveTile m r c).2 = m ∧
    ((moveTile m r c).1 = true ↔ (r, c) = m.emptyPosition ∧
      canMoveTile m r c = true) := by
  by_cases hcan : canMoveTile m r c = true
  · -- then (r, c) = emptyPosition
    have hrc : (r, c) = m.emptyPosition := by
      by_contra hne
      exact hill ⟨hcan, hne⟩
    obtain ⟨hlen, hrows, hperm, her0, her1, hec0, hec1, hzero⟩ := hwf
    have hr : r = m.emptyPosition.1 := by
      have := congrArg Prod.fst hrc; simpa using this
    have hc : c = m.emptyPosition.2 := by
      have := congrArg Prod.snd hrc; simpa using this
    have hmain : moveTile m r c = (true, m) := by
      rw [moveTile, if_neg (by simp [hcan]), if_pos hr]
      refine congrArg _ ?_
      show shiftRow m r c = m
      rw [shiftRow]
      have hd0 : (c - m.emptyPosition.2).natAbs = 0 := by
        rw [hc]; simp
      rw [hd0]
      simp only [shiftRowLoop]
      -- the final write puts the 0 already there back
      have hidx : r.toNat < m.board.length := by omega
      have hgetd : m.board.getD r.toNat [] = m.board[r.toNat] := by
        simp [List.getD_eq_getElem?_getD, List.getElem?_eq_getElem hidx]
      have hrowlen : (m.board.getD r.toNat []).length = m.dimension := by
        rw [hgetd]
        exact hrows _ (List.getElem_mem hidx)
      have hcell : getCell m.board r c = 0 := by rw [hr, hc]; exact hzero
      have : setCell m.board r c 0 = m.board := by
        conv_lhs => rw [← hcell]
        rw [setCell, if_pos ⟨by omega, by omega⟩, getCell,
          if_pos ⟨by omega, by omega⟩, setCellN, getCellN]
        rw [set_getD_self _ _ _ (by omega)]
        rw [set_getD_self _ _ _ (by omega)]
      rw [this]
      have : (r, c) = m.emptyPosition := hrc
      cases m with
      | mk dim b e => simp_all
    constructor
    · rw [hmain]
    · rw [hmain]; simp [hrc, hcan]
  · have hmain : moveTile m r c = (false, m) := by
      rw [moveTile, if_pos (by simp [hcan])]
    constructor
    · rw [hmain]
    · rw [hmain]; simp [hcan]

/-- C3 witness: the out-of-line target `(0, 1)` on a fresh 3×3 engine
(empty at `(2, 2)`): no-op and failure. -/
theorem C3_moveTile_illegal_noop_witness :
    (moveTile (PuzzleModel.init 3) 0 1).2 = PuzzleModel.init 3 ∧
    ((moveTile (PuzzleModel.init 3) 0 1).1 = true ↔
      ((0 : Int), (1 : Int)) = (PuzzleModel.init 3).emptyPosition ∧
      canMoveTile (PuzzleModel.init 3) 0 1 = true) :=
  C3_moveTile_illegal_noop (PuzzleModel.init 3) 0 1 (by decide) (by decide)

/-! ## C10: out-of-bounds coordinates -/

/-- C10: for any integer coordinates outside `[0, n)²` — e.g. those a
peer could put in a MoveMade message — every engine entry point is a
guarded no-op: `canMoveTile` is `false`, `moveTile` and
`moveAdjacentTile` report failure and leave the model unchanged,
`getTileValue` is `-1`, and `getAffectedTiles` is empty.  (In the
embedding every operation is total, mirroring the source's
`isValidPosition` guards in front of every grid access.) -/
theorem C10_out_of_bounds_noop (m : PuzzleModel) (r c : Int)
    (h : ¬ (0 ≤ r ∧ r < (m.dimension : Int) ∧ 0 ≤ c ∧ c < (m.dimension : Int))) :
    canMoveTile m r c = false ∧
    moveTile m r c = (false, m) ∧
    getTileValue m r c = -1 ∧
    getAffectedTiles m r c = [] ∧
    moveAdjacentTile m r c = (false, m) := by
  have hv : isValidPosition m r c = false := by
    simp [isValidPosition, h]
  have hcan : canMoveTile m r c = false := by
    simp [canMoveTile, hv]
  refine ⟨hcan, ?_, ?_, ?_, ?_⟩
  · rw [moveTile, if_pos (by simp [hcan])]
  · rw [getTileValue, if_neg (by simp [hv])]
  · rw [getAffectedTiles, if_pos (by simp [hcan])]
  · rw [moveAdjacentTile, if_pos (by simp [hv])]

/-- C10 witness: row index 3 on a 3×3 engine (as a hostile MoveMade
could supply). -/
theorem C10_out_of_bounds_noop_witness :
    canMoveTile (PuzzleModel.init 3) 3 0 = false ∧
    moveTile (PuzzleModel.init 3) 3 0 = (false, PuzzleModel.init 3) ∧
    getTileValue (PuzzleModel.init 3) 3 0 = -1 ∧
    getAffectedTiles (PuzzleModel.init 3) 3 0 = [] ∧
    moveAdjacentTile (PuzzleModel.init 3) 3 0 = (false, PuzzleModel.init 3) :=
  C10_out_of_bounds_noop (PuzzleModel.init 3) 3 0 (by decide)

/-! ## C5: protocol determinism -/

/-- C5: `moveTile` is a function of the engine state and the input
coordinates alone, so two engines whose states agree — as after
installing the same GameStart snapshot — stay bit-identical (same board,
same `emptyPosition`) after replaying every prefix of the same ordered
move sequence. -/
theorem C5_protocol_determinism (e1 e2 : PuzzleModel)
    (hdim : e1.dimension = e2.dimension)
    (hboard : e1.board = e2.board)
    (hempty : e1.emptyPosition = e2.emptyPosition)
    (ms : List (Int × Int)) (k : Nat) :
    (applyMoves e1 (ms.take k)).board = (applyMoves e2 (ms.take k)).board ∧
    (applyMoves e1 (ms.take k)).emptyPosition =
      (applyMoves e2 (ms.take k)).emptyPosition := by
  obtain ⟨d1, b1, p1⟩ := e1
  obtain ⟨d2, b2, p2⟩ := e2
  simp only at hdim hboard hempty
  subst hdim; subst hboard; subst hempty
  exact ⟨rfl, rfl⟩

/-- C5 witness: two structurally equal fresh 3×3 engines replaying the
same two moves. -/
theorem C5_protocol_determinism_witness :
    (applyMoves (PuzzleModel.init 3) ([((2 : Int), (0 : Int)), (1, 0)].take 2)).board =
      (applyMoves (PuzzleModel.init 3) ([((2 : Int), (0 : Int)), (1, 0)].take 2)).board ∧
    (applyMoves (PuzzleModel.init 3) ([((2 : Int), (0 : Int)), (1, 0)].take 2)).emptyPosition =
      (applyMoves (PuzzleModel.init 3) ([((2 : Int), (0 : Int)), (1, 0)].take 2)).emptyPosition :=
  C5_protocol_determinism (PuzzleModel.init 3) (PuzzleModel.init 3) rfl rfl rfl _ 2

/-! ## C7: malformed GameStart grids -/

/-- C7 (counterexample): a 3×3 grid with no zero at all — malformed in
the claim's sense — is installed by `handleReceivedGameStart` exactly as
received (with `emptyPosition` silently defaulted to the bottom-right
cell), instead of failing with a MalformedState error: the handler
performs no validation and has no error path. -/
theorem C7_gameStart_installs_malformed_cex :
    (handleReceivedGameStart 3 malformedGrid).board = malformedGrid ∧
    (handleReceivedGameStart 3 malformedGrid).emptyPosition = (2, 2) ∧
    ¬ WF (handleReceivedGameStart 3 malformedGrid) := by decide

/-- C7 (amended): `handleReceivedGameStart` unconditionally installs any
received grid into a fresh engine of the (clamped) received dimension,
recomputing `emptyPosition` as the first zero cell in row-major order or
defaulting to the bottom-right cell when the grid has none; no
MalformedState error exists in the code. -/
theorem C7_gameStart_no_validation (d : Int) (b : Board) :
    (handleReceivedGameStart d b).board = b ∧
    (handleReceivedGameStart d b).emptyPosition = findEmptyPosition b ∧
    (handleReceivedGameStart d b).dimension = (max 2 (min 8 d)).toNat :=
  ⟨rfl, rfl, rfl⟩

/-! ## C1: received moves -/

/-- C1: in an active session with an installed engine,
`handleReceivedMove` never applies the received move: it sets the
`receivedMove` flag and calls `handleTileClick`, whose first guard sees
the very flag that was just set, clears it and returns before reaching
the engine.  The resulting state differs from the prior state only in
that flag — the model is untouched (the received move is dropped, where
the spec requires it to be applied) and nothing is (re-)transmitted. -/
theorem C1_receivedMove_dropped (s : MPController) (r c : Int)
    (m : PuzzleModel) (hact : s.isMultiplayerActive = true)
    (hm : s.model = some m) :
    handleReceivedMove s r c = { s with receivedMove := false } ∧
    (handleReceivedMove s r c).model = s.model ∧
    (handleReceivedMove s r c).sent = s.sent := by
  have hmain : handleReceivedMove s r c = { s with receivedMove := false } := by
    rw [handleReceivedMove, if_neg (by simp [hact, hm])]
    rw [mpHandleTileClick, if_pos (by simp [hact])]
  exact ⟨hmain, by rw [hmain], by rw [hmain]⟩

/-- C1 witness (the failing input): a connected 3×3 session receiving the
legal move `(2, 0)`.  The engine's own `moveTile` would apply it and
change the board (first conjunct), but the handler returns with the board
untouched and nothing sent (remaining conjuncts). -/
theorem C1_receivedMove_dropped_witness :
    ((moveTile (PuzzleModel.init 3) 2 0).1 = true ∧
      (moveTile (PuzzleModel.init 3) 2 0).2.board ≠ (PuzzleModel.init 3).board) ∧
    handleReceivedMove ctrl0 2 0 = { ctrl0 with receivedMove := false } ∧
    (handleReceivedMove ctrl0 2 0).model = ctrl0.model ∧
    (handleReceivedMove ctrl0 2 0).sent = ctrl0.sent :=
  ⟨by decide, C1_receivedMove_dropped ctrl0 2 0 (PuzzleModel.init 3) rfl rfl⟩

/-! ## C8: affected tiles -/

/-- C8 (counterexample): on a fresh 4×4 engine (empty at `(3, 3)`),
clicking `(3, 0)` yields `[(3, 1), (3, 2)]` — increasing column order —
whereas the claimed empty-cell-first order would be `[(3, 2), (3, 1)]`.
The source always iterates `min+1 .. max-1` upward, regardless of which
side the empty cell is on. -/
theorem C8_affectedTiles_order_cex :
    getAffectedTiles (PuzzleModel.init 4) 3 0 = [(3, 1), (3, 2)] ∧
    ([((3 : Int), (1 : Int)), (3, 2)] : List (Int × Int)) ≠ [(3, 2), (3, 1)] := by
  decide

/-- C8 (amended): `getAffectedTiles(pos)` returns exactly the cells
strictly between `emptyPosition` and `pos` along the shared line — hence
of length equal to the line distance minus 1 — but ordered by increasing
row/column index (lowest first), not starting from the empty cell's side;
it returns `[]` when the move is rejected by `canMoveTile` and also when
`pos` is the empty cell itself. -/
theorem C8_affectedTiles_spec (m : PuzzleModel) (r c : Int) :
    (canMoveTile m r c = false → getAffectedTiles m r c = []) ∧
    ((r, c) = m.emptyPosition → getAffectedTiles m r c = []) ∧
    (canMoveTile m r c = true → r = m.emptyPosition.1 →
      (getAffectedTiles m r c).length = (c - m.emptyPosition.2).natAbs - 1 ∧
      (∀ p : Int × Int, p ∈ getAffectedTiles m r c ↔
        p.1 = r ∧ min c m.emptyPosition.2 < p.2 ∧ p.2 < max c m.emptyPosition.2) ∧
      (getAffectedTiles m r c).Pairwise (fun p q => p.2 < q.2)) ∧
    (canMoveTile m r c = true → r ≠ m.emptyPosition.1 → c = m.emptyPosition.2 →
      (getAffectedTiles m r c).length = (r - m.emptyPosition.1).natAbs - 1 ∧
      (∀ p : Int × Int, p ∈ getAffectedTiles m r c ↔
        p.2 = c ∧ min r m.emptyPosition.1 < p.1 ∧ p.1 < max r m.emptyPosition.1) ∧
      (getAffectedTiles m r c).Pairwise (fun p q => p.1 < q.1)) := by
  refine ⟨?_, ?_, ?_, ?_⟩
  · intro hcan
    rw [getAffectedTiles, if_pos (by simp [hcan])]
  · intro hrc
    have hr : r = m.emptyPosition.1 := by
      have := congrArg Prod.fst hrc; simpa using this
    have hc : c = m.emptyPosition.2 := by
      have := congrArg Prod.snd hrc; simpa using this
    by_cases hcan : canMoveTile m r c = true
    · rw [getAffectedTiles, if_neg (by simp [hcan])]
      simp only [if_pos hr]
      have : (max c m.emptyPosition.2 - (min c m.emptyPosition.2 + 1)).toNat = 0 := by
        omega
      rw [this]
      simp
    · rw [getAffectedTiles, if_pos (by simp [hcan])]
  · intro hcan hr
    rw [getAffectedTiles, if_neg (by simp [hcan])]
    simp only [if_pos hr]
    refine ⟨?_, ?_, ?_⟩
    · rw [List.length_map, List.length_range]
      omega
    · intro p
      simp only [List.mem_map, List.mem_range]
      constructor
      · rintro ⟨i, hi, rfl⟩
        refine ⟨rfl, ?_, ?_⟩ <;> dsimp only <;> omega
      · rintro ⟨h1, h2, h3⟩
        refine ⟨(p.2 - (min c m.emptyPosition.2 + 1)).toNat, by omega, ?_⟩
        obtain ⟨p1, p2⟩ := p
        dsimp only at h1 h2 h3
        rw [Prod.mk.injEq]
        exact ⟨h1.symm, by omega⟩
    · rw [List.pairwise_map]
      exact (List.pairwise_lt_range _).imp (fun h => by dsimp only; omega)
  · intro hcan hr hc
    rw [getAffectedTiles, if_neg (by simp [hcan])]
    simp only [if_neg hr, if_pos hc]
    refine ⟨?_, ?_, ?_⟩
    · rw [List.length_map, List.length_range]
      omega
    · intro p
      simp only [List.mem_map, List.mem_range]
      constructor
      · rintro ⟨i, hi, rfl⟩
        refine ⟨rfl, ?_, ?_⟩ <;> dsimp only <;> omega
      · rintro ⟨h1, h2, h3⟩
        refine ⟨(p.1 - (min r m.emptyPosition.1 + 1)).toNat, by omega, ?_⟩
        obtain ⟨p1, p2⟩ := p
        dsimp only at h1 h2 h3
        rw [Prod.mk.injEq]
        exact ⟨by omega, h1.symm⟩
    · rw [List.pairwise_map]
      exact (List.pairwise_lt_range _).imp (fun h => by dsimp only; omega)

/-! ## C6: GameStart round-trip -/

/-- Row-major flat index of a cell in a rectangular board. -/
theorem getCellN_flatten (b : Board) (n : Nat)
    (hlen : ∀ row ∈ b, row.length = n) (r c : Nat)
    (hr : r < b.length) (hc : c < n) :
    getCellN b r c = b.flatten.getD (r * n + c) 0 := by
  induction b generalizing r with
  | nil => simp at hr
  | cons R T ih =>
      have hR : R.length = n := hlen R (by simp)
      cases r with
      | zero =>
          rw [getCellN]
          simp only [List.getD_cons_zero, List.flatten_cons, Nat.zero_mul,
            Nat.zero_add]
          rw [List.getD_append _ _ _ c (by omega)]
      | succ r' =>
          have hr' : r' < T.length := by
            simp only [List.length_cons] at hr; omega
          have := ih (fun row hrow => hlen row (by simp [hrow])) r' hr'
          rw [getCellN] at this ⊢
          simp only [List.getD_cons_succ, List.flatten_cons]
          rw [this, List.getD_append_right _ _ _ _ (by
            rw [hR]
            calc n ≤ r' * n + n := by omega
              _ = (r' + 1) * n := by ring
              _ ≤ (r' + 1) * n + c := by omega)]
          congr 1
          rw [hR]
          ring_nf
          omega

/-- The cell at `r * n + c` bound for rectangular boards. -/
theorem flat_index_lt (r c n : Nat) (hr : r < n) (hc : c < n) :
    r * n + c < n * n := by
  calc r * n + c < r * n + n := by omega
    _ = (r + 1) * n := by ring
    _ ≤ n * n := Nat.mul_le_mul_right n hr

/-- Row-major flat indexing is injective on in-range column indices. -/
theorem rowmajor_inj (n r c r' c' : Nat) (hc : c < n) (hc' : c' < n)
    (h : r * n + c = r' * n + c') : r = r' ∧ c = c' := by
  have h1 : r = r' := by
    rcases Nat.lt_trichotomy r r' with hlt | he | hgt
    · exfalso
      have : r * n + c < r' * n + c' := by
        calc r * n + c < r * n + n := by omega
          _ = (r + 1) * n := by ring
          _ ≤ r' * n := Nat.mul_le_mul_right n (by omega)
          _ ≤ r' * n + c' := by omega
      omega
    · exact he
    · exfalso
      have : r' * n + c' < r * n + c := by
        calc r' * n + c' < r' * n + n := by omega
          _ = (r' + 1) * n := by ring
          _ ≤ r * n := Nat.mul_le_mul_right n (by omega)
          _ ≤ r * n + c := by omega
      omega
  subst h1
  omega

/-- `findSome?` over `List.range n` returns the first hit: if `f i` hits
and everything before `i` misses, the scan returns `f i`'s value. -/
theorem findSome_range_first {β : Type} (n : Nat) (f : Nat → Option β)
    (i : Nat) (b : β) (hi : i < n) (hhit : f i = some b)
    (hbefore : ∀ j < i, f j = none) :
    (List.range n).findSome? f = some b := by
  rw [show n = i + (n - i) by omega, List.range_add, List.findSome?_append]
  have h1 : (List.range i).findSome? f = none := by
    rw [List.findSome?_eq_none_iff]
    intro x hx
    exact hbefore x (List.mem_range.mp hx)
  rw [h1, Option.none_or, List.findSome?_map]
  rw [show n - i = (n - i - 1) + 1 by omega, List.range_succ_eq_map]
  rw [List.findSome?_cons]
  have : (f ∘ fun x => i + x) 0 = some b := by
    simp only [Function.comp_apply, Nat.add_zero]
    exact hhit
  rw [this]

/-- For a well-formed engine, the guest-side scan `findEmptyPosition`
recovers exactly the host's cached `emptyPosition`. -/
theorem findEmptyPosition_wf (m : PuzzleModel) (hwf : WF m)
    (hn : 0 < m.dimension) :
    findEmptyPosition m.board = m.emptyPosition := by
  obtain ⟨hlen, hrows, hperm, her0, her1, hec0, hec1, hzero⟩ := hwf
  set n := m.dimension with hnd
  set erN := m.emptyPosition.1.toNat with herN
  set ecN := m.emptyPosition.2.toNat with hecN
  have herlt : erN < n := by omega
  have heclt : ecN < n := by omega
  have hblen : m.board.length = n := hlen
  -- the head row really has length n
  have hhead : (m.board.headD []).length = n := by
    cases hb : m.board with
    | nil => rw [hb] at hblen; simp at hblen; omega
    | cons R T =>
        have : R ∈ m.board := by rw [hb]; simp
        have := hrows R this
        simp [this]
  -- the 0 cell is unique
  have hnodup : m.board.flatten.Nodup :=
    hperm.symm.nodup (List.nodup_range _)
  have hflen : m.board.flatten.length = n * n := by
    rw [hperm.length_eq, List.length_range]
  have hcell0 : getCellN m.board erN ecN = 0 := by
    rw [getCell, if_pos ⟨her0, hec0⟩] at hzero
    exact hzero
  have huniq : ∀ r c : Nat, r < n → c < n →
      getCellN m.board r c = 0 → r = erN ∧ c = ecN := by
    intro r c hr hc h0
    have h1 : m.board.flatten.getD (r * n + c) 0 = 0 := by
      rw [← getCellN_flatten m.board n hrows r c (by omega) hc]
      exact h0
    have h2 : m.board.flatten.getD (erN * n + ecN) 0 = 0 := by
      rw [← getCellN_flatten m.board n hrows erN ecN (by omega) heclt]
      exact hcell0
    have hi1 : r * n + c < m.board.flatten.length := by
      rw [hflen]; exact flat_index_lt r c n hr hc
    have hi2 : erN * n + ecN < m.board.flatten.length := by
      rw [hflen]; exact flat_index_lt erN ecN n herlt heclt
    have e1 : m.board.flatten[r * n + c] = 0 := by
      rw [List.getD_eq_getElem?_getD, List.getElem?_eq_getElem hi1] at h1
      exact h1
    have e2 : m.board.flatten[erN * n + ecN] = 0 := by
      rw [List.getD_eq_getElem?_getD, List.getElem?_eq_getElem hi2] at h2
      exact h2
    have : r * n + c = erN * n + ecN :=
      (List.Nodup.getElem_inj_iff hnodup).mp (e1.trans e2.symm)
    exact rowmajor_inj n r c erN ecN hc heclt this
  -- the row-major scan finds exactly (erN, ecN)
  have hinner : ∀ r : Nat, r < n →
      ((List.range (m.board.headD []).length).findSome? fun c =>
        if (m.board.getD r []).getD c 0 = 0 then some ((r : Int), (c : Int))
        else none) =
      (if r = erN then some ((erN : Int), (ecN : Int)) else none) := by
    intro r hrn
    by_cases hre : r = erN
    · subst hre
      rw [if_pos rfl, hhead]
      refine findSome_range_first n _ ecN _ heclt ?_ ?_
      · rw [if_pos (show (m.board.getD erN []).getD ecN 0 = 0 from hcell0)]
      · intro j hj
        rw [if_neg]
        intro h0
        have := huniq erN j hrn (by omega) h0
        omega
    · rw [if_neg hre, List.findSome?_eq_none_iff]
      intro c hc
      rw [if_neg]
      intro h0
      have := huniq r c hrn (by rw [hhead] at hc; exact List.mem_range.mp hc) h0
      exact hre this.1
  rw [findEmptyPosition]
  have houter :
      ((List.range m.board.length).findSome? fun r =>
        (List.range (m.board.headD []).length).findSome? fun c =>
          if (m.board.getD r []).getD c 0 = 0 then some ((r : Int), (c : Int))
          else none) = some ((erN : Int), (ecN : Int)) := by
    rw [hblen]
    refine findSome_range_first n _ erN _ herlt ?_ ?_
    · rw [hinner erN herlt, if_pos rfl]
    · intro j hj
      rw [hinner j (by omega), if_neg (by omega)]
  rw [houter]
  have e1 : ((erN : Nat) : Int) = m.emptyPosition.1 := by
    rw [herN]; exact Int.toNat_of_nonneg her0
  have e2 : ((ecN : Nat) : Int) = m.emptyPosition.2 := by
    rw [hecN]; exact Int.toNat_of_nonneg hec0
  have : ((erN : Int), (ecN : Int)) = m.emptyPosition := by
    rw [Prod.mk.injEq]
    exact ⟨e1, e2⟩
  rw [this]

/-- C6: serializing a well-formed board on the host (`getBoard()` inside
the GameStart message) and installing it on the guest
(`handleReceivedGameStart`, which rescans for the 0 cell) reproduces an
engine whose entire state — dimension, board, and recomputed
`emptyPosition` — equals the host's. -/
theorem C6_gameStart_roundtrip (m : PuzzleModel) (hwf : WF m)
    (h2 : 2 ≤ m.dimension) (h8 : m.dimension ≤ 8) :
    handleReceivedGameStart (m.dimension : Int) (serializeBoard m) = m := by
  have hfind : findEmptyPosition m.board = m.emptyPosition :=
    findEmptyPosition_wf m hwf (by omega)
  have hdim : (max 2 (min 8 (m.dimension : Int))).toNat = m.dimension := by
    omega
  rw [handleReceivedGameStart]
  show ({ PuzzleModel.init (m.dimension : Int) with
    board := serializeBoard m,
    emptyPosition := findEmptyPosition (serializeBoard m) } : PuzzleModel) = m
  rw [serializeBoard] at *
  obtain ⟨dim, b, e⟩ := m
  simp only [PuzzleModel.init, solvedModel] at *
  rw [PuzzleModel.mk.injEq]
  exact ⟨hdim, rfl, hfind⟩

/-- C6 witness: a fresh (well-formed, solved) 3×3 engine round-trips. -/
theorem C6_gameStart_roundtrip_witness :
    handleReceivedGameStart ((PuzzleModel.init 3).dimension : Int)
      (serializeBoard (PuzzleModel.init 3)) = PuzzleModel.init 3 :=
  C6_gameStart_roundtrip (PuzzleModel.init 3) (by decide) (by decide) (by decide)

/-! ## C9: shuffle -/

/-- `moveAdjacentTile` never changes the dimension. -/
theorem moveAdjacentTile_dimension (m : PuzzleModel) (r c : Int) :
    (moveAdjacentTile m r c).2.dimension = m.dimension := by
  rw [moveAdjacentTile]
  split
  · rfl
  · dsimp only
    split
    · rfl
    · rfl

/-- `shuffleSteps` never changes the dimension. -/
theorem shuffleSteps_dimension :
    ∀ (k : Nat) (f : Nat → Nat) (m : PuzzleModel),
      (shuffleSteps f k m).dimension = m.dimension := by
  intro k
  induction k with
  | zero => intro f m; rfl
  | succ k ih =>
      intro f m
      rw [shuffleSteps]
      cases hg : (getPossibleMoves m).get?
          (f 0 % (getPossibleMoves m).length) with
      | none =>
          simp only [hg]
          exact ih _ _
      | some rc =>
          simp only [hg]
          rw [ih]
          exact moveAdjacentTile_dimension m rc.1 rc.2

/-- Every state `shuffleSteps` produces from a reachable state is
reachable: each iteration applies `moveAdjacentTile` (or, for an empty
move list, nothing). -/
theorem shuffleSteps_reachable (n : Nat) :
    ∀ (k : Nat) (f : Nat → Nat) (m : PuzzleModel),
      ReachableAdj n m → ReachableAdj n (shuffleSteps f k m) := by
  intro k
  induction k with
  | zero => intro f m h; exact h
  | succ k ih =>
      intro f m h
      rw [shuffleSteps]
      cases hg : (getPossibleMoves m).get?
          (f 0 % (getPossibleMoves m).length) with
      | none =>
          simp only [hg]
          exact ih _ _ h
      | some rc =>
          simp only [hg]
          exact ih _ _ (ReachableAdj.step m rc.1 rc.2 h)

/-- C9: whenever `shuffle` returns — for every random stream `f`, every
requested move count and every recursion budget that suffices — the
resulting board is not solved (the source reshuffles while it is), and it
is reachable from the solved board by the engine's own
`moveAdjacentTile` moves: the shuffle loop runs
`max(moves, 10·dimension²)` iterations, each applying one randomly chosen
adjacent move after a `reset()`, so the solvability invariant holds by
construction. -/
theorem C9_shuffle_spec :
    ∀ (fuel : Nat) (f : Nat → Nat) (moves : Nat) (m res : PuzzleModel),
      shuffleFuel fuel f moves m = some res →
      isSolved res = false ∧ ReachableAdj m.dimension res := by
  intro fuel
  induction fuel with
  | zero =>
      intro f moves m res h
      simp [shuffleFuel] at h
  | succ fuel ih =>
      intro f moves m res h
      rw [shuffleFuel] at h
      by_cases hs :
          isSolved (shuffleSteps f
            (max moves (m.dimension * m.dimension * 10)) (reset m)) = true
      · rw [if_pos hs] at h
        have hrec := ih _ _ _ _ h
        have hdim :
            (shuffleSteps f (max moves (m.dimension * m.dimension * 10))
              (reset m)).dimension = m.dimension := by
          rw [shuffleSteps_dimension]
          rfl
        rw [hdim] at hrec
        exact hrec
      · rw [if_neg hs] at h
        injection h with h'
        subst h'
        refine ⟨by simpa using hs, ?_⟩
        apply shuffleSteps_reachable
        exact ReachableAdj.base

set_option maxRecDepth 8000 in
/-- C9 witness: on a 2×2 engine with the all-zeros random stream and
`moves = 41`, `shuffle` returns after one pass (41 adjacent swaps leave
the board unsolved), and the result is unsolved and reachable. -/
theorem C9_shuffle_spec_witness :
    isSolved shuffleWitnessResult = false ∧
    ReachableAdj (PuzzleModel.init 2).dimension shuffleWitnessResult :=
  C9_shuffle_spec 1 (fun _ => 0) 41 (PuzzleModel.init 2)
    shuffleWitnessResult (by decide)

/-! ## C4: legal moves — loop machinery -/

/-- `getD` after `set` at the same (valid) index. -/
theorem getD_set_eq {α : Type} (l : List α) (i : Nat) (a d : α)
    (h : i < l.length) : (l.set i a).getD i d = a := by
  simp [List.getD_eq_getElem?_getD, List.getElem?_set, h]

/-- `getD` after `set` at a different index. -/
theorem getD_set_ne {α : Type} (l : List α) (i j : Nat) (a d : α)
    (h : i ≠ j) : (l.set i a).getD j d = l.getD j d := by
  simp [List.getD_eq_getElem?_getD, List.getElem?_set, h]

/-- `getD` out of range gives the default. -/
theorem getD_oob {α : Type} (l : List α) (i : Nat) (d : α)
    (h : l.length ≤ i) : l.getD i d = d := by
  rw [List.getD_eq_getElem?_getD, List.getElem?_eq_none h]
  rfl

/-- `take` before the `set` position is unaffected (allows `j ≤ i`). -/
theorem take_set_le {α : Type} :
    ∀ (l : List α) (i j : Nat) (a : α), j ≤ i →
      (l.set i a).take j = l.take j := by
  intro l
  induction l with
  | nil => intro i j a _; rfl
  | cons x t ih =>
      intro i j a h
      cases i with
      | zero =>
          cases j with
          | zero => rfl
          | succ j' => omega
      | succ i' =>
          cases j with
          | zero => rfl
          | succ j' =>
              simp only [List.set_cons_succ, List.take_succ_cons]
              rw [ih i' j' a (by omega)]

/-- Peeling a `cons` off a rightward chain run (the run never revisits
smaller indices). -/
theorem chainLoopR_cons {α : Type} (g : α → α → α) (d : α) :
    ∀ (k i : Nat) (a : α) (l : List α),
      chainLoopR g d (a :: l) (i + 1) k = a :: chainLoopR g d l i k := by
  intro k
  induction k with
  | zero => intro i a l; rfl
  | succ k ih =>
      intro i a l
      rw [chainLoopR, chainLoopR]
      simp only [List.set_cons_succ, List.getD_cons_succ]
      exact ih (i + 1) a _

/-- Closed form of a rightward chain run starting at index 0. -/
theorem chainLoopR_zero_spec {α : Type} (g : α → α → α) (d : α) :
    ∀ (k : Nat) (l : List α), k < l.length →
      chainLoopR g d l 0 k =
        (List.range k).map (fun i => g (l.getD i d) (l.getD (i + 1) d)) ++
          l.drop k := by
  intro k
  induction k with
  | zero => intro l h; simp [chainLoopR]
  | succ k ih =>
      intro l h
      match l with
      | a :: b :: t =>
        rw [chainLoopR]
        simp only [List.getD_cons_zero, List.getD_cons_succ,
          List.set_cons_zero]
        rw [chainLoopR_cons]
        rw [ih (b :: t) (by simp only [List.length_cons] at h ⊢; omega)]
        rw [List.range_succ_eq_map]
        simp only [List.map_cons, List.map_map, List.getD_cons_zero,
          List.drop_succ_cons, List.cons_append]
        rfl

/-- Closed form of a rightward chain run starting anywhere. -/
theorem chainLoopR_spec {α : Type} (g : α → α → α) (d : α) :
    ∀ (s k : Nat) (l : List α), s + k < l.length →
      chainLoopR g d l s k =
        l.take s ++
          ((List.range k).map
            (fun i => g (l.getD (s + i) d) (l.getD (s + i + 1) d)) ++
            l.drop (s + k)) := by
  intro s
  induction s with
  | zero =>
      intro k l h
      simpa using chainLoopR_zero_spec g d k l (by omega)
  | succ s ih =>
      intro k l h
      match l with
      | a :: t =>
        rw [chainLoopR_cons]
        rw [ih k t (by simp only [List.length_cons] at h; omega)]
        have hmap : (List.range k).map
              (fun i => g ((a :: t).getD (s + 1 + i) d)
                ((a :: t).getD (s + 1 + i + 1) d)) =
            (List.range k).map
              (fun i => g (t.getD (s + i) d) (t.getD (s + i + 1) d)) := by
          apply List.map_congr_left
          intro i _
          have e1 : s + 1 + i = (s + i) + 1 := by omega
          rw [e1]
          simp only [List.getD_cons_succ]
        have hdrop : (a :: t).drop (s + 1 + k) = t.drop (s + k) := by
          have e3 : s + 1 + k = (s + k) + 1 := by omega
          rw [e3, List.drop_succ_cons]
        rw [List.take_succ_cons, hmap, hdrop, List.cons_append]

/-- Peeling a `cons` off a leftward chain run that stays right of the
head (`k ≤ i`). -/
theorem chainLoopL_cons {α : Type} (g : α → α → α) (d : α) :
    ∀ (k i : Nat) (a : α) (l : List α), k ≤ i →
      chainLoopL g d (a :: l) (i + 1) k = a :: chainLoopL g d l i k := by
  intro k
  induction k with
  | zero => intro i a l _; rfl
  | succ k ih =>
      intro i a l hk
      obtain ⟨i', rfl⟩ : ∃ i', i = i' + 1 := ⟨i - 1, by omega⟩
      rw [chainLoopL, chainLoopL]
      simp only [List.set_cons_succ, List.getD_cons_succ,
        Nat.add_sub_cancel]
      exact ih i' a _ (by omega)

/-- Closed form of a leftward chain run that ends exactly at index 1
(started at `i = k`). -/
theorem chainLoopL_zero_spec {α : Type} (g : α → α → α) (d : α) :
    ∀ (k : Nat) (l : List α), k < l.length →
      chainLoopL g d l k k =
        l.take 1 ++
          ((List.range k).map
            (fun j => g (l.getD (j + 1) d) (l.getD j d)) ++
            l.drop (k + 1)) := by
  intro k
  induction k with
  | zero =>
      intro l h
      match l with
      | a :: t => simp [chainLoopL]
  | succ k ih =>
      intro l h
      rw [chainLoopL]
      simp only [Nat.add_sub_cancel]
      have hlen : k < (l.set (k + 1)
          (g (l.getD (k + 1) d) (l.getD k d))).length := by
        rw [List.length_set]; omega
      rw [ih _ hlen]
      have ht : (l.set (k + 1) (g (l.getD (k + 1) d) (l.getD k d))).take 1 =
          l.take 1 := take_set_le l (k + 1) 1 _ (by omega)
      have hmapeq :
          (List.range k).map (fun j =>
            g ((l.set (k + 1) (g (l.getD (k + 1) d) (l.getD k d))).getD (j + 1) d)
              ((l.set (k + 1) (g (l.getD (k + 1) d) (l.getD k d))).getD j d)) =
          (List.range k).map (fun j => g (l.getD (j + 1) d) (l.getD j d)) := by
        apply List.map_congr_left
        intro j hj
        have hj' : j < k := List.mem_range.mp hj
        rw [getD_set_ne l (k + 1) (j + 1) _ d (by omega),
          getD_set_ne l (k + 1) j _ d (by omega)]
      have hdrop : (l.set (k + 1) (g (l.getD (k + 1) d) (l.getD k d))).drop
          (k + 1) = g (l.getD (k + 1) d) (l.getD k d) :: l.drop (k + 2) := by
        rw [List.drop_set]
        simp only [if_neg (by omega : ¬ (k + 1 < k + 1)), Nat.sub_self]
        rw [List.drop_eq_getElem_cons (by omega : k + 1 < l.length)]
        rw [List.set_cons_zero]
      rw [ht, hmapeq, hdrop, List.range_succ, List.map_append]
      simp [List.append_assoc]

/-- Closed form of a leftward chain run from `p + k` down to `p + 1`. -/
theorem chainLoopL_spec {α : Type} (g : α → α → α) (d : α) :
    ∀ (p k : Nat) (l : List α), p + k < l.length →
      chainLoopL g d l (p + k) k =
        l.take (p + 1) ++
          ((List.range k).map
            (fun j => g (l.getD (p + j + 1) d) (l.getD (p + j) d)) ++
            l.drop (p + k + 1)) := by
  intro p
  induction p with
  | zero =>
      intro k l h
      simpa using chainLoopL_zero_spec g d k l (by omega)
  | succ p ih =>
      intro k l h
      match l with
      | a :: t =>
        have e : p + 1 + k = (p + k) + 1 := by omega
        rw [e, chainLoopL_cons g d k (p + k) a t (by omega)]
        rw [ih k t (by simp only [List.length_cons] at h; omega)]
        have hmap : (List.range k).map
              (fun j => g ((a :: t).getD (p + 1 + j + 1) d)
                ((a :: t).getD (p + 1 + j) d)) =
            (List.range k).map
              (fun j => g (t.getD (p + j + 1) d) (t.getD (p + j) d)) := by
          apply List.map_congr_left
          intro j _
          have e2 : p + 1 + j = (p + j) + 1 := by omega
          rw [e2]
          simp only [List.getD_cons_succ]
        rw [show p + 1 + 1 = (p + 1) + 1 from rfl, List.take_succ_cons, hmap,
          show p + k + 1 + 1 = (p + k + 1) + 1 from rfl, List.drop_succ_cons,
          List.cons_append]

/-- Writing an element back to its own position is the identity. -/
theorem set_getD_self_any {α : Type} (l : List α) (i : Nat) (d : α) :
    l.set i (l.getD i d) = l := by
  by_cases h : i < l.length
  · exact set_getD_self l i d h
  · exact List.set_eq_of_length_le (by omega)

/-- `getCell` at natural coordinates. -/
theorem getCell_coe (b : Board) (r c : Nat) :
    getCell b (r : Int) (c : Int) = getCellN b r c := by
  rw [getCell, if_pos ⟨Int.natCast_nonneg r, Int.natCast_nonneg c⟩]
  simp

/-- `setCell` at natural coordinates. -/
theorem setCell_coe (b : Board) (r c : Nat) (v : Nat) :
    setCell b (r : Int) (c : Int) v = setCellN b r c v := by
  rw [setCell, if_pos ⟨Int.natCast_nonneg r, Int.natCast_nonneg c⟩]
  simp

/-- The row of a board after `set` of that row. -/
theorem board_set_getD (b : Board) (i : Nat) (X : List Nat) :
    (b.set i X).getD i [] = if i < b.length then X else [] := by
  by_cases h : i < b.length
  · rw [if_pos h]
    exact getD_set_eq b i X [] h
  · rw [if_neg h, List.set_eq_of_length_le (by omega), getD_oob _ _ _ (by omega)]

/-- The rightward source row loop is a rightward chain run on the row
(the update takes the right neighbour's value). -/
theorem shiftRowLoop_eq_chainR :
    ∀ (k : Nat) (b : Board) (rowN colN : Nat),
      shiftRowLoop (rowN : Int) 1 k (colN : Int) b =
        b.set rowN
          (chainLoopR (fun _ y => y) 0 (b.getD rowN []) colN k) := by
  intro k
  induction k with
  | zero =>
      intro b rowN colN
      rw [shiftRowLoop, chainLoopR, set_getD_self_any]
  | succ k ih =>
      intro b rowN colN
      rw [shiftRowLoop]
      have e1 : (colN : Int) + 1 = ((colN + 1 : Nat) : Int) := by push_cast; ring
      rw [e1, getCell_coe, setCell_coe]
      rw [ih (setCellN b rowN colN (getCellN b rowN (colN + 1))) rowN (colN + 1)]
      rw [setCellN]
      have hrow : (b.set rowN ((b.getD rowN []).set colN
          (getCellN b rowN (colN + 1)))).getD rowN [] =
          (b.getD rowN []).set colN (getCellN b rowN (colN + 1)) := by
        rw [board_set_getD]
        by_cases h : rowN < b.length
        · rw [if_pos h]
        · rw [if_neg h, getD_oob _ _ _ (by omega)]
          rfl
      rw [hrow, List.set_set]
      rfl

/-- The leftward source row loop is a leftward chain run on the row. -/
theorem shiftRowLoop_eq_chainL :
    ∀ (k : Nat) (b : Board) (rowN colN : Nat), k ≤ colN →
      shiftRowLoop (rowN : Int) (-1) k (colN : Int) b =
        b.set rowN
          (chainLoopL (fun _ y => y) 0 (b.getD rowN []) colN k) := by
  intro k
  induction k with
  | zero =>
      intro b rowN colN _
      rw [shiftRowLoop, chainLoopL, set_getD_self_any]
  | succ k ih =>
      intro b rowN colN hk
      rw [shiftRowLoop]
      have e1 : (colN : Int) + (-1) = ((colN - 1 : Nat) : Int) := by omega
      rw [e1, getCell_coe, setCell_coe]
      rw [ih (setCellN b rowN colN (getCellN b rowN (colN - 1))) rowN
        (colN - 1) (by omega)]
      rw [setCellN]
      have hrow : (b.set rowN ((b.getD rowN []).set colN
          (getCellN b rowN (colN - 1)))).getD rowN [] =
          (b.getD rowN []).set colN (getCellN b rowN (colN - 1)) := by
        rw [board_set_getD]
        by_cases h : rowN < b.length
        · rw [if_pos h]
        · rw [if_neg h, getD_oob _ _ _ (by omega)]
          rfl
      rw [hrow, List.set_set]
      rfl

/-- The downward source column loop is a rightward chain run on the
board (the update writes the column cell from the row below). -/
theorem shiftColumnLoop_eq_chainR :
    ∀ (k : Nat) (b : Board) (colN rowN : Nat),
      shiftColumnLoop (colN : Int) 1 k (rowN : Int) b =
        chainLoopR (fun R next => R.set colN (next.getD colN 0)) [] b rowN k := by
  intro k
  induction k with
  | zero => intro b colN rowN; rfl
  | succ k ih =>
      intro b colN rowN
      rw [shiftColumnLoop]
      have e1 : (rowN : Int) + 1 = ((rowN + 1 : Nat) : Int) := by push_cast; ring
      rw [e1, getCell_coe, setCell_coe]
      rw [ih (setCellN b rowN colN (getCellN b (rowN + 1) colN)) colN (rowN + 1)]
      rfl

/-- The upward source column loop is a leftward chain run on the
board. -/
theorem shiftColumnLoop_eq_chainL :
    ∀ (k : Nat) (b : Board) (colN rowN : Nat), k ≤ rowN →
      shiftColumnLoop (colN : Int) (-1) k (rowN : Int) b =
        chainLoopL (fun R prev => R.set colN (prev.getD colN 0)) [] b rowN k := by
  intro k
  induction k with
  | zero => intro b colN rowN _; rfl
  | succ k ih =>
      intro b colN rowN hk
      rw [shiftColumnLoop]
      have e1 : (rowN : Int) + (-1) = ((rowN - 1 : Nat) : Int) := by omega
      rw [e1, getCell_coe, setCell_coe]
      rw [ih (setCellN b rowN colN (getCellN b (rowN - 1) colN)) colN
        (rowN - 1) (by omega)]
      rfl

/-- A range-indexed `getD` map is a `drop`-`take` slice. -/
theorem range_map_getD {α : Type} (l : List α) (d : α) (s k : Nat)
    (h : s + k ≤ l.length) :
    (List.range k).map (fun i => l.getD (s + i) d) = (l.drop s).take k := by
  apply List.ext_getElem
  · simp only [List.length_map, List.length_range, List.length_take,
      List.length_drop]
    omega
  · intro n h1 h2
    simp only [List.length_map, List.length_range] at h1
    rw [List.getElem_map, List.getElem_range, List.getElem_take,
      List.getElem_drop]
    rw [List.getD_eq_getElem?_getD, List.getElem?_eq_getElem (by omega)]
    rfl

/-- `getD` inside a `take` prefix. -/
theorem getD_take {α : Type} (l : List α) (i j : Nat) (d : α) (h : i < j) :
    (l.take j).getD i d = l.getD i d := by
  rw [List.getD_eq_getElem?_getD, List.getD_eq_getElem?_getD,
    List.getElem?_take, if_pos h]

/-- `getD` at an index inside the left part of an append. -/
theorem getD_append_lt {α : Type} (l l' : List α) (d : α) (i : Nat)
    (h : i < l.length) : (l ++ l').getD i d = l.getD i d :=
  List.getD_append l l' d i h

/-- Closed form of the rightward `shiftRow` (`emptyCol < clickedCol`)
followed by the final write of 0 at the clicked cell. -/
theorem rowShift_right (b : Board) (n erN ecN cN : Nat)
    (hlen : b.length = n) (hrows : ∀ row ∈ b, row.length = n)
    (her : erN < n) (hc : cN < n) (hlt : ecN < cN) :
    setCell (shiftRowLoop (erN : Int) 1 (cN - ecN) (ecN : Int) b)
        (erN : Int) (cN : Int) 0 =
      b.set erN ((b.getD erN []).take ecN ++
        (((b.getD erN []).drop (ecN + 1)).take (cN - ecN) ++
          (0 :: (b.getD erN []).drop (cN + 1)))) := by
  have hrowlen : (b.getD erN []).length = n := by
    have : b.getD erN [] = b[erN] := by
      rw [List.getD_eq_getElem?_getD,
        List.getElem?_eq_getElem (by omega : erN < b.length)]
      rfl
    rw [this]
    exact hrows _ (List.getElem_mem _)
  set L := b.getD erN [] with hL
  set k := cN - ecN with hk
  rw [shiftRowLoop_eq_chainR]
  rw [chainLoopR_spec _ _ _ _ _ (by omega : ecN + k < L.length)]
  have hmap : (List.range k).map
        (fun i => (fun _ y => y) (L.getD (ecN + i) 0) (L.getD (ecN + i + 1) 0)) =
      (L.drop (ecN + 1)).take k := by
    rw [← range_map_getD L 0 (ecN + 1) k (by omega)]
    apply List.map_congr_left
    intro i _
    have e : ecN + i + 1 = ecN + 1 + i := by omega
    rw [e]
  rw [hmap, setCell_coe, setCellN]
  have hget : (b.set erN (L.take ecN ++ ((L.drop (ecN + 1)).take k ++
      L.drop (ecN + k)))).getD erN [] =
      L.take ecN ++ ((L.drop (ecN + 1)).take k ++ L.drop (ecN + k)) := by
    rw [board_set_getD, if_pos (by omega)]
  rw [hget, List.set_set]
  congr 1
  -- now the row-level set at position cN
  have hlt1 : (L.take ecN).length = ecN := by
    rw [List.length_take]; omega
  have hlt2 : ((L.drop (ecN + 1)).take k).length = k := by
    rw [List.length_take, List.length_drop]; omega
  rw [List.set_append, if_neg (by omega : ¬ cN < (L.take ecN).length)]
  congr 1
  rw [List.set_append, hlt1, if_neg (by rw [hlt2]; omega)]
  congr 1
  rw [hlt2]
  have e2 : cN - ecN - k = 0 := by omega
  have e3 : ecN + k = cN := by omega
  rw [e2, e3, List.drop_eq_getElem_cons (by omega : cN < L.length),
    List.set_cons_zero]

/-- Closed form of the leftward `shiftRow` (`clickedCol < emptyCol`)
followed by the final write of 0 at the clicked cell. -/
theorem rowShift_left (b : Board) (n erN ecN cN : Nat)
    (hlen : b.length = n) (hrows : ∀ row ∈ b, row.length = n)
    (her : erN < n) (hec : ecN < n) (hlt : cN < ecN) :
    setCell (shiftRowLoop (erN : Int) (-1) (ecN - cN) (ecN : Int) b)
        (erN : Int) (cN : Int) 0 =
      b.set erN ((b.getD erN []).take cN ++
        (0 :: (((b.getD erN []).drop cN).take (ecN - cN) ++
          (b.getD erN []).drop (ecN + 1)))) := by
  have hrowlen : (b.getD erN []).length = n := by
    have : b.getD erN [] = b[erN] := by
      rw [List.getD_eq_getElem?_getD,
        List.getElem?_eq_getElem (by omega : erN < b.length)]
      rfl
    rw [this]
    exact hrows _ (List.getElem_mem _)
  set L := b.getD erN [] with hL
  set k := ecN - cN with hk
  rw [shiftRowLoop_eq_chainL _ _ _ _ (by omega)]
  have e0 : ecN = cN + k := by omega
  rw [e0, chainLoopL_spec _ _ _ _ _ (by omega : cN + k < L.length)]
  have hmap : (List.range k).map
        (fun j => (fun _ y => y) (L.getD (cN + j + 1) 0) (L.getD (cN + j) 0)) =
      (L.drop cN).take k := by
    rw [← range_map_getD L 0 cN k (by omega)]
  rw [hmap, setCell_coe, setCellN]
  have hget : (b.set erN (L.take (cN + 1) ++ ((L.drop cN).take k ++
      L.drop (cN + k + 1)))).getD erN [] =
      L.take (cN + 1) ++ ((L.drop cN).take k ++ L.drop (cN + k + 1)) := by
    rw [board_set_getD, if_pos (by omega)]
  rw [hget, List.set_set]
  congr 1
  have hlt1 : (L.take (cN + 1)).length = cN + 1 := by
    rw [List.length_take]; omega
  rw [List.set_append, if_pos (by omega : cN < (L.take (cN + 1)).length)]
  rw [List.take_succ]
  have hcN : L[cN]? = some L[cN] :=
    List.getElem?_eq_getElem (by omega : cN < L.length)
  rw [hcN]
  have hlt3 : (L.take cN).length = cN := by
    rw [List.length_take]; omega
  rw [List.set_append, if_neg (by omega : ¬ cN < (L.take cN).length), hlt3]
  have e4 : cN - cN = 0 := by omega
  rw [e4]
  show (L.take cN ++ [0]) ++ ((L.drop cN).take k ++ L.drop (cN + k + 1)) = _
  rw [List.append_assoc, List.singleton_append]

/-- Closed form of the downward `shiftColumn` (`emptyRow < clickedRow`)
followed by the final write of 0 at the clicked cell. -/
theorem colShift_down (b : Board) (n erN ecN rN : Nat)
    (hlen : b.length = n)
    (her : erN < n) (hr : rN < n) (hlt : erN < rN) :
    setCell (shiftColumnLoop (ecN : Int) 1 (rN - erN) (erN : Int) b)
        (rN : Int) (ecN : Int) 0 =
      b.take erN ++
        ((List.range (rN - erN)).map
          (fun i => (b.getD (erN + i) []).set ecN
            ((b.getD (erN + i + 1) []).getD ecN 0)) ++
          (((b.getD rN []).set ecN 0) :: b.drop (rN + 1))) := by
  set k := rN - erN with hk
  rw [shiftColumnLoop_eq_chainR]
  rw [chainLoopR_spec _ _ _ _ _ (by omega : erN + k < b.length)]
  rw [setCell_coe, setCellN]
  have hlt1 : (b.take erN).length = erN := by
    rw [List.length_take]; omega
  have hlt2 : ((List.range k).map (fun i => (b.getD (erN + i) []).set ecN
      ((b.getD (erN + i + 1) []).getD ecN 0))).length = k := by
    rw [List.length_map, List.length_range]
  have e3 : erN + k = rN := by omega
  have hgetrow : (b.take erN ++
      ((List.range k).map (fun i => (b.getD (erN + i) []).set ecN
        ((b.getD (erN + i + 1) []).getD ecN 0)) ++
        b.drop (erN + k))).getD rN [] = b.getD rN [] := by
    rw [List.getD_append_right _ _ _ _ (by omega), hlt1]
    rw [List.getD_append_right _ _ _ _ (by omega), hlt2]
    rw [e3]
    have e5 : rN - erN - k = 0 := by omega
    rw [e5, List.drop_eq_getElem_cons (by omega : rN < b.length)]
    show b[rN] = List.getD b rN []
    rw [List.getD_eq_getElem?_getD,
      List.getElem?_eq_getElem (by omega : rN < b.length)]
    try rfl
  rw [hgetrow]
  rw [List.set_append, if_neg (by omega : ¬ rN < (b.take erN).length)]
  congr 1
  rw [List.set_append, hlt1, if_neg (by rw [hlt2]; omega), hlt2]
  congr 1
  rw [e3]
  have e5 : rN - erN - k = 0 := by omega
  rw [e5, List.drop_eq_getElem_cons (by omega : rN < b.length),
    List.set_cons_zero]

/-- Closed form of the upward `shiftColumn` (`clickedRow < emptyRow`)
followed by the final write of 0 at the clicked cell. -/
theorem colShift_up (b : Board) (n erN ecN rN : Nat)
    (hlen : b.length = n)
    (her : erN < n) (hr : rN < n) (hlt : rN < erN) :
    setCell (shiftColumnLoop (ecN : Int) (-1) (erN - rN) (erN : Int) b)
        (rN : Int) (ecN : Int) 0 =
      b.take rN ++
        (((b.getD rN []).set ecN 0) ::
          ((List.range (erN - rN)).map
            (fun j => (b.getD (rN + j + 1) []).set ecN
              ((b.getD (rN + j) []).getD ecN 0)) ++
            b.drop (erN + 1))) := by
  set k := erN - rN with hk
  rw [shiftColumnLoop_eq_chainL _ _ _ _ (by omega)]
  have e0 : erN = rN + k := by omega
  rw [e0, chainLoopL_spec _ _ _ _ _ (by omega : rN + k < b.length)]
  rw [setCell_coe, setCellN]
  have hlt1 : (b.take (rN + 1)).length = rN + 1 := by
    rw [List.length_take]; omega
  have hgetrow : (b.take (rN + 1) ++
      ((List.range k).map (fun j => (b.getD (rN + j + 1) []).set ecN
        ((b.getD (rN + j) []).getD ecN 0)) ++
        b.drop (rN + k + 1))).getD rN [] = b.getD rN [] := by
    rw [getD_append_lt _ _ _ _ (by omega), getD_take _ _ _ _ (by omega)]
  rw [hgetrow]
  rw [List.set_append, if_pos (by omega : rN < (b.take (rN + 1)).length)]
  rw [List.take_succ]
  have hrN : b[rN]? = some b[rN] :=
    List.getElem?_eq_getElem (by omega : rN < b.length)
  rw [hrN]
  have hlt3 : (b.take rN).length = rN := by
    rw [List.length_take]; omega
  rw [List.set_append, if_neg (by omega : ¬ rN < (b.take rN).length), hlt3]
  have e4 : rN - rN = 0 := by omega
  rw [e4]
  show (b.take rN ++ [(List.getD b rN []).set ecN 0]) ++ _ = _
  rw [List.append_assoc, List.singleton_append]

/-! ### Multiset bookkeeping for the shifts -/

/-- Counting after a single in-bounds `set`: the old value leaves, the
new value enters. -/
theorem count_set (L : List Nat) (i : Nat) (x v : Nat) (h : i < L.length) :
    (L.set i x).count v + (if L.getD i 0 = v then 1 else 0) =
      L.count v + (if x = v then 1 else 0) := by
  have hgd : L.getD i 0 = L[i] := by
    rw [List.getD_eq_getElem?_getD, List.getElem?_eq_getElem h]
    rfl
  have hL : L = L.take i ++ L[i] :: L.drop (i + 1) := by
    conv_lhs => rw [← List.take_append_drop i L]
    rw [List.drop_eq_getElem_cons h]
  rw [List.set_eq_take_append_cons_drop, if_pos h, List.count_append,
    List.count_cons]
  conv_rhs => rw [hL, List.count_append, List.count_cons]
  rw [hgd]
  simp only [beq_iff_eq]
  split_ifs <;> omega

/-- Replacing one row of a board by a permutation of it permutes the
flattened board. -/
theorem flatten_set_perm :
    ∀ (b : Board) (i : Nat) (X : List Nat), i < b.length →
      List.Perm X (b.getD i []) →
      List.Perm (b.set i X).flatten b.flatten := by
  intro b
  induction b with
  | nil => intro i X h; simp at h
  | cons R T ih =>
      intro i X h hperm
      cases i with
      | zero =>
          simp only [List.set_cons_zero, List.flatten_cons]
          exact List.Perm.append_right T.flatten (by simpa using hperm)
      | succ i' =>
          simp only [List.set_cons_succ, List.flatten_cons]
          refine List.Perm.append_left R (ih i' X ?_ ?_)
          · simp only [List.length_cons] at h; omega
          · simpa using hperm

/-- Count bookkeeping for the downward column block. -/
theorem chainPull_count (c : Nat) :
    ∀ (T : List (List Nat)) (R : List Nat), c < R.length →
      (∀ row ∈ T, c < row.length) → ∀ v : Nat,
      (chainPull c R T).flatten.count v + (if R.getD c 0 = v then 1 else 0) =
        (R :: T).flatten.count v + (if 0 = v then 1 else 0) := by
  intro T
  induction T with
  | nil =>
      intro R hR _ v
      show (R.set c 0 :: ([] : List (List Nat))).flatten.count v + _ = _
      simp only [List.flatten_cons, List.flatten_nil, List.append_nil]
      exact count_set R c 0 v hR
  | cons S T' ih =>
      intro R hR hr v
      have hS : c < S.length := hr S (by simp)
      have h1 := ih S hS (fun row hrow => hr row (by simp [hrow])) v
      have h2 := count_set R c (S.getD c 0) v hR
      show (R.set c (S.getD c 0) :: chainPull c S T').flatten.count v + _ = _
      simp only [List.flatten_cons, List.count_append] at h1 h2 ⊢
      omega

/-- The downward column block permutes the cells of its rows, provided
the first row holds 0 in the shifted column. -/
theorem chainPull_perm (c : Nat) (T : List (List Nat)) (R : List Nat)
    (hR : c < R.length) (hT : ∀ row ∈ T, c < row.length)
    (h0 : R.getD c 0 = 0) :
    List.Perm (chainPull c R T).flatten (R :: T).flatten := by
  rw [List.perm_iff_count]
  intro v
  have := chainPull_count c T R hR hT v
  rw [h0] at this
  omega

/-- Count bookkeeping for the upward column block tail. -/
theorem chainWrite_count (c : Nat) :
    ∀ (T : List (List Nat)) (R : List Nat), c < R.length →
      (∀ row ∈ T, c < row.length) → ∀ v : Nat,
      (chainWrite c R T).flatten.count v +
          (if (T.getLastD R).getD c 0 = v then 1 else 0) =
        T.flatten.count v + (if R.getD c 0 = v then 1 else 0) := by
  intro T
  induction T with
  | nil =>
      intro R _ _ v
      simp [chainWrite]
  | cons S T' ih =>
      intro R hR hr v
      have hS : c < S.length := hr S (by simp)
      have h1 := ih S hS (fun row hrow => hr row (by simp [hrow])) v
      have h2 := count_set S c (R.getD c 0) v hS
      show (S.set c (R.getD c 0) :: chainWrite c S T').flatten.count v + _ = _
      rw [List.getLastD_cons]
      simp only [List.flatten_cons, List.count_append] at h1 h2 ⊢
      omega

/-- The upward column block permutes the cells of its rows, provided the
last row holds 0 in the shifted column. -/
theorem chainWrite_perm (c : Nat) (T : List (List Nat)) (R : List Nat)
    (hR : c < R.length) (hT : ∀ row ∈ T, c < row.length)
    (h0 : (T.getLastD R).getD c 0 = 0) :
    List.Perm (R.set c 0 :: chainWrite c R T).flatten (R :: T).flatten := by
  rw [List.perm_iff_count]
  intro v
  have h1 := chainWrite_count c T R hR hT v
  have h2 := count_set R c 0 v hR
  rw [h0] at h1
  simp only [List.flatten_cons, List.count_append] at h1 h2 ⊢
  omega

/-- The range-map form of the downward column block. -/
theorem chainPull_eq_map (c : Nat) :
    ∀ (k : Nat) (g : Nat → List Nat),
      chainPull c (g 0) ((List.range k).map fun i => g (i + 1)) =
        (List.range k).map
          (fun i => (g i).set c ((g (i + 1)).getD c 0)) ++
          [(g k).set c 0] := by
  intro k
  induction k with
  | zero => intro g; rfl
  | succ k ih =>
      intro g
      have hrange : (List.range (k + 1)).map (fun i => g (i + 1)) =
          g 1 :: (List.range k).map (fun i => g (i + 1 + 1)) := by
        rw [List.range_succ_eq_map, List.map_cons, List.map_map]
        congr 1
      rw [hrange, chainPull]
      have hih := ih (fun i => g (i + 1))
      simp only at hih
      rw [hih]
      have hrange2 : (List.range (k + 1)).map
          (fun i => (g i).set c ((g (i + 1)).getD c 0)) =
          ((g 0).set c ((g 1).getD c 0)) ::
            (List.range k).map
              (fun i => (g (i + 1)).set c ((g (i + 1 + 1)).getD c 0)) := by
        rw [List.range_succ_eq_map, List.map_cons, List.map_map]
        congr 1
      rw [hrange2, List.cons_append]

/-- The range-map form of the upward column block tail. -/
theorem chainWrite_eq_map (c : Nat) :
    ∀ (k : Nat) (g : Nat → List Nat),
      chainWrite c (g 0) ((List.range k).map fun j => g (j + 1)) =
        (List.range k).map
          (fun j => (g (j + 1)).set c ((g j).getD c 0)) := by
  intro k
  induction k with
  | zero => intro g; rfl
  | succ k ih =>
      intro g
      have hrange : (List.range (k + 1)).map (fun j => g (j + 1)) =
          g 1 :: (List.range k).map (fun j => g (j + 1 + 1)) := by
        rw [List.range_succ_eq_map, List.map_cons, List.map_map]
        congr 1
      rw [hrange, chainWrite]
      have hih := ih (fun j => g (j + 1))
      simp only at hih
      rw [hih]
      have hrange2 : (List.range (k + 1)).map
          (fun j => (g (j + 1)).set c ((g j).getD c 0)) =
          ((g 1).set c ((g 0).getD c 0)) ::
            (List.range k).map
              (fun j => (g (j + 1 + 1)).set c ((g (j + 1)).getD c 0)) := by
        rw [List.range_succ_eq_map, List.map_cons, List.map_map]
        congr 1
      rw [hrange2]

/-- `getD` through `drop`. -/
theorem getD_drop {α : Type} (l : List α) (s j : Nat) (d : α) :
    (l.drop s).getD j d = l.getD (s + j) d := by
  rw [List.getD_eq_getElem?_getD, List.getD_eq_getElem?_getD,
    List.getElem?_drop]

/-- Row `i` of a rectangular board has length `n`. -/
theorem row_length (b : Board) (n : Nat) (hlen : b.length = n)
    (hrows : ∀ row ∈ b, row.length = n) (i : Nat) (h : i < n) :
    (b.getD i []).length = n := by
  have : b.getD i [] = b[i] := by
    rw [List.getD_eq_getElem?_getD,
      List.getElem?_eq_getElem (by omega : i < b.length)]
    rfl
  rw [this]
  exact hrows _ (List.getElem_mem _)

/-- `MoveSpec` in the rightward row branch (`r = emptyRow`,
`emptyCol < c`). -/
theorem moveSpec_row_right (m : PuzzleModel) (r c : Int) (hwf : WF m)
    (hr : r = m.emptyPosition.1) (hlt : m.emptyPosition.2 < c)
    (hv : isValidPosition m r c = true) : MoveSpec m r c := by
  obtain ⟨hlen, hrows, hperm, her0, her1, hec0, hec1, hzero⟩ := hwf
  rw [isValidPosition_iff] at hv
  obtain ⟨hr0, hr1, hc0, hc1⟩ := hv
  have hcan : canMoveTile m r c = true := by
    rw [canMoveTile_iff]
    exact ⟨⟨hr0, hr1, hc0, hc1⟩, Or.inl hr⟩
  have hmove : moveTile m r c = (true, shiftRow m r c) := by
    rw [moveTile, if_neg (by simp [hcan]), if_pos hr]
  set n := m.dimension with hn
  set b := m.board with hb
  set rN := r.toNat with hrN
  set cN := c.toNat with hcN
  set ecN := m.emptyPosition.2.toNat with hecN
  have hrcast : (rN : Int) = r := Int.toNat_of_nonneg hr0
  have hccast : (cN : Int) = c := Int.toNat_of_nonneg hc0
  have heccast : (ecN : Int) = m.emptyPosition.2 := Int.toNat_of_nonneg hec0
  have hrNn : rN < n := by omega
  have hcNn : cN < n := by omega
  have hecNlt : ecN < cN := by omega
  set L := b.getD rN [] with hL
  have hrowlen : L.length = n := row_length b n hlen hrows rN hrNn
  set k := cN - ecN with hk
  set newRow := L.take ecN ++
    ((L.drop (ecN + 1)).take k ++ (0 :: L.drop (cN + 1))) with hNR
  have hboard : (shiftRow m r c).board = b.set rN newRow := by
    simp only [shiftRow]
    rw [if_pos hlt]
    rw [show (c - m.emptyPosition.2).natAbs = k by omega]
    rw [← hrcast, ← hccast, ← heccast]
    exact rowShift_right b n rN ecN cN hlen hrows hrNn hcNn hecNlt
  have hdim : (shiftRow m r c).dimension = n := by
    simp only [shiftRow]
  have hemp : (shiftRow m r c).emptyPosition = (r, c) := by
    simp only [shiftRow]
  -- the old empty cell holds 0
  have hL0 : L.getD ecN 0 = 0 := by
    rw [getCell, if_pos ⟨her0, hec0⟩, getCellN] at hzero
    rw [hL, hb]
    rw [show m.emptyPosition.1.toNat = rN by omega] at hzero
    exact hzero
  -- lengths
  have hAlen : (L.take ecN).length = ecN := by
    rw [List.length_take]; omega
  have hSlen : ((L.drop (ecN + 1)).take k).length = k := by
    rw [List.length_take, List.length_drop]; omega
  have hNRlen : newRow.length = n := by
    rw [hNR]
    simp only [List.length_append, List.length_cons, List.length_take,
      List.length_drop]
    omega
  -- decomposition of the old row and the permutation
  have hLdecomp : L = L.take ecN ++
      (0 :: ((L.drop (ecN + 1)).take k ++ L.drop (cN + 1))) := by
    conv_lhs => rw [← List.take_append_drop ecN L]
    congr 1
    rw [List.drop_eq_getElem_cons (by omega : ecN < L.length)]
    have h0 : L[ecN] = 0 := by
      have := hL0
      rwa [List.getD_eq_getElem?_getD,
        List.getElem?_eq_getElem (by omega : ecN < L.length)] at this
    rw [h0]
    congr 1
    conv_lhs => rw [← List.take_append_drop k (L.drop (ecN + 1))]
    congr 1
    rw [List.drop_drop]
    congr 1
    omega
  have hNRperm : List.Perm newRow L := by
    rw [hNR]
    conv_rhs => rw [hLdecomp]
    exact List.Perm.append_left _ List.perm_middle
  -- value facts about the new row
  have hval_A : ∀ yN : Nat, yN < ecN → newRow.getD yN 0 = L.getD yN 0 := by
    intro yN hy
    rw [hNR, getD_append_lt _ _ _ _ (by omega), getD_take _ _ _ _ (by omega)]
  have hval_S : ∀ yN : Nat, ecN ≤ yN → yN < cN →
      newRow.getD yN 0 = L.getD (yN + 1) 0 := by
    intro yN hy1 hy2
    rw [hNR, List.getD_append_right _ _ _ _ (by omega), hAlen,
      getD_append_lt _ _ _ _ (by omega), getD_take _ _ _ _ (by omega),
      getD_drop]
    congr 1
    omega
  have hval_c : newRow.getD cN 0 = 0 := by
    rw [hNR, List.getD_append_right _ _ _ _ (by omega), hAlen,
      List.getD_append_right _ _ _ _ (by omega), hSlen,
      show cN - ecN - k = 0 by omega, List.getD_cons_zero]
  have hval_C : ∀ yN : Nat, cN < yN → newRow.getD yN 0 = L.getD yN 0 := by
    intro yN hy
    rw [hNR, List.getD_append_right _ _ _ _ (by omega), hAlen,
      List.getD_append_right _ _ _ _ (by omega), hSlen,
      show yN - ecN - k = (yN - cN - 1) + 1 by omega, List.getD_cons_succ,
      getD_drop]
    congr 1
    omega
  -- WF of the result
  have hWF : WF (shiftRow m r c) := by
    refine ⟨?_, ?_, ?_, ?_, ?_, ?_, ?_, ?_⟩
    · rw [hboard, hdim, List.length_set]
      exact hlen
    · intro row hrow
      rw [hboard] at hrow
      rw [hdim]
      rcases List.mem_or_eq_of_mem_set hrow with h | h
      · exact hrows row h
      · rw [h]; exact hNRlen
    · rw [hboard, hdim]
      exact (flatten_set_perm b rN newRow (by omega) hNRperm).trans hperm
    · rw [hemp]; exact hr0
    · rw [hemp, hdim]; exact hr1
    · rw [hemp]; exact hc0
    · rw [hemp, hdim]; exact hc1
    · rw [hemp, hboard]
      show getCell (b.set rN newRow) r c = 0
      rw [getCell, if_pos ⟨hr0, hc0⟩, getCellN]
      rw [getD_set_eq b rN newRow [] (by omega)]
      exact hval_c
  -- pointwise description
  have hpoint : ∀ x y : Int, isValidPosition m x y = true →
      getCell (shiftRow m r c).board x y =
        (if x = r ∧ y = c then 0
         else if x = r ∧ r = m.emptyPosition.1 ∧
             onSegment m.emptyPosition.2 c y then
           getCell m.board x (y + stepToward m.emptyPosition.2 c)
         else if y = c ∧ c = m.emptyPosition.2 ∧
             onSegment m.emptyPosition.1 r x then
           getCell m.board (x + stepToward m.emptyPosition.1 r) y
         else getCell m.board x y) := by
    intro x y hv'
    rw [isValidPosition_iff] at hv'
    obtain ⟨hx0, hx1, hy0, hy1⟩ := hv'
    have hstep : stepToward m.emptyPosition.2 c = 1 := by
      rw [stepToward, if_pos hlt]
    rw [hboard, getCell, if_pos ⟨hx0, hy0⟩, getCellN]
    by_cases hxr : x.toNat = rN
    · rw [hxr, getD_set_eq b rN newRow [] (by omega)]
      have hxwr : x = r := by omega
      by_cases hyzone3 : y.toNat = cN
      · rw [if_pos ⟨hxwr, by omega⟩, hyzone3]
        exact hval_c
      · by_cases hyzone1 : y.toNat < ecN
        · rw [if_neg (by omega), if_neg (by
            simp only [onSegment]
            omega), if_neg (by
            simp only [onSegment]
            omega)]
          rw [hval_A y.toNat hyzone1, getCell, if_pos ⟨hx0, hy0⟩, getCellN]
          rw [hxr]
        · by_cases hyzone2 : y.toNat < cN
          · rw [if_neg (by omega), if_pos ⟨hxwr, hr, by
              simp only [onSegment]
              omega⟩]
            rw [hval_S y.toNat (by omega) hyzone2, hstep]
            rw [getCell, if_pos ⟨hx0, by omega⟩, getCellN]
            rw [hxr, show (y + 1).toNat = y.toNat + 1 by omega]
          · rw [if_neg (by omega), if_neg (by
              simp only [onSegment]
              omega), if_neg (by
              simp only [onSegment]
              omega)]
            rw [hval_C y.toNat (by omega), getCell, if_pos ⟨hx0, hy0⟩,
              getCellN]
            rw [hxr]
    · have hxwr : ¬ x = r := by omega
      rw [getD_set_ne b rN x.toNat newRow [] (fun h => hxr h.symm)]
      rw [if_neg (by tauto), if_neg (by tauto), if_neg (by
        simp only [onSegment]
        omega)]
      rw [getCell, if_pos ⟨hx0, hy0⟩, getCellN]
  refine ⟨?_, ?_, ?_, ?_, ?_⟩
  · rw [hmove]
  · rw [hmove]; exact hdim
  · rw [hmove]; exact hemp
  · rw [hmove]; exact hWF
  · intro x y hv'
    rw [hmove]
    exact hpoint x y hv'

/-- `MoveSpec` in the leftward row branch (`r = emptyRow`,
`c < emptyCol`). -/
theorem moveSpec_row_left (m : PuzzleModel) (r c : Int) (hwf : WF m)
    (hr : r = m.emptyPosition.1) (hgt : c < m.emptyPosition.2)
    (hv : isValidPosition m r c = true) : MoveSpec m r c := by
  obtain ⟨hlen, hrows, hperm, her0, her1, hec0, hec1, hzero⟩ := hwf
  rw [isValidPosition_iff] at hv
  obtain ⟨hr0, hr1, hc0, hc1⟩ := hv
  have hcan : canMoveTile m r c = true := by
    rw [canMoveTile_iff]
    exact ⟨⟨hr0, hr1, hc0, hc1⟩, Or.inl hr⟩
  have hmove : moveTile m r c = (true, shiftRow m r c) := by
    rw [moveTile, if_neg (by simp [hcan]), if_pos hr]
  set n := m.dimension with hn
  set b := m.board with hb
  set rN := r.toNat with hrN
  set cN := c.toNat with hcN
  set ecN := m.emptyPosition.2.toNat with hecN
  have hrcast : (rN : Int) = r := Int.toNat_of_nonneg hr0
  have hccast : (cN : Int) = c := Int.toNat_of_nonneg hc0
  have heccast : (ecN : Int) = m.emptyPosition.2 := Int.toNat_of_nonneg hec0
  have hrNn : rN < n := by omega
  have hecNn : ecN < n := by omega
  have hcNlt : cN < ecN := by omega
  set L := b.getD rN [] with hL
  have hrowlen : L.length = n := row_length b n hlen hrows rN hrNn
  set k := ecN - cN with hk
  set newRow := L.take cN ++
    (0 :: ((L.drop cN).take k ++ L.drop (ecN + 1))) with hNR
  have hboard : (shiftRow m r c).board = b.set rN newRow := by
    simp only [shiftRow]
    rw [if_neg (by omega : ¬ m.emptyPosition.2 < c)]
    rw [show (c - m.emptyPosition.2).natAbs = k by omega]
    rw [← hrcast, ← hccast, ← heccast]
    exact rowShift_left b n rN ecN cN hlen hrows hrNn hecNn hcNlt
  have hdim : (shiftRow m r c).dimension = n := by
    simp only [shiftRow]
  have hemp : (shiftRow m r c).emptyPosition = (r, c) := by
    simp only [shiftRow]
  have hL0 : L.getD ecN 0 = 0 := by
    rw [getCell, if_pos ⟨her0, hec0⟩, getCellN] at hzero
    rw [hL, hb]
    rw [show m.emptyPosition.1.toNat = rN by omega] at hzero
    exact hzero
  have hAlen : (L.take cN).length = cN := by
    rw [List.length_take]; omega
  have hSlen : ((L.drop cN).take k).length = k := by
    rw [List.length_take, List.length_drop]; omega
  have hNRlen : newRow.length = n := by
    rw [hNR]
    simp only [List.length_append, List.length_cons, List.length_take,
      List.length_drop]
    omega
  have hLdecomp : L = L.take cN ++
      (((L.drop cN).take k ++ (0 :: L.drop (ecN + 1)))) := by
    conv_lhs => rw [← List.take_append_drop cN L]
    congr 1
    conv_lhs => rw [← List.take_append_drop k (L.drop cN)]
    congr 1
    rw [List.drop_drop]
    rw [show cN + k = ecN by omega]
    rw [List.drop_eq_getElem_cons (by omega : ecN < L.length)]
    have h0 : L[ecN] = 0 := by
      have := hL0
      rwa [List.getD_eq_getElem?_getD,
        List.getElem?_eq_getElem (by omega : ecN < L.length)] at this
    rw [h0]
  have hNRperm : List.Perm newRow L := by
    rw [hNR]
    conv_rhs => rw [hLdecomp]
    exact List.Perm.append_left _ List.perm_middle.symm
  have hval_A : ∀ yN : Nat, yN < cN → newRow.getD yN 0 = L.getD yN 0 := by
    intro yN hy
    rw [hNR, getD_append_lt _ _ _ _ (by omega), getD_take _ _ _ _ (by omega)]
  have hval_c : newRow.getD cN 0 = 0 := by
    rw [hNR, List.getD_append_right _ _ _ _ (by omega), hAlen,
      show cN - cN = 0 by omega, List.getD_cons_zero]
  have hval_S : ∀ yN : Nat, cN < yN → yN ≤ ecN →
      newRow.getD yN 0 = L.getD (yN - 1) 0 := by
    intro yN hy1 hy2
    rw [hNR, List.getD_append_right _ _ _ _ (by omega), hAlen,
      show yN - cN = (yN - cN - 1) + 1 by omega, List.getD_cons_succ,
      getD_append_lt _ _ _ _ (by omega), getD_take _ _ _ _ (by omega),
      getD_drop]
    congr 1
    omega
  have hval_C : ∀ yN : Nat, ecN < yN → newRow.getD yN 0 = L.getD yN 0 := by
    intro yN hy
    rw [hNR, List.getD_append_right _ _ _ _ (by omega), hAlen,
      show yN - cN = (yN - cN - 1) + 1 by omega, List.getD_cons_succ,
      List.getD_append_right _ _ _ _ (by omega), hSlen, getD_drop]
    congr 1
    omega
  have hWF : WF (shiftRow m r c) := by
    refine ⟨?_, ?_, ?_, ?_, ?_, ?_, ?_, ?_⟩
    · rw [hboard, hdim, List.length_set]
      exact hlen
    · intro row hrow
      rw [hboard] at hrow
      rw [hdim]
      rcases List.mem_or_eq_of_mem_set hrow with h | h
      · exact hrows row h
      · rw [h]; exact hNRlen
    · rw [hboard, hdim]
      exact (flatten_set_perm b rN newRow (by omega) hNRperm).trans hperm
    · rw [hemp]; exact hr0
    · rw [hemp, hdim]; exact hr1
    · rw [hemp]; exact hc0
    · rw [hemp, hdim]; exact hc1
    · rw [hemp, hboard]
      show getCell (b.set rN newRow) r c = 0
      rw [getCell, if_pos ⟨hr0, hc0⟩, getCellN]
      rw [getD_set_eq b rN newRow [] (by omega)]
      exact hval_c
  have hpoint : ∀ x y : Int, isValidPosition m x y = true →
      getCell (shiftRow m r c).board x y =
        (if x = r ∧ y = c then 0
         else if x = r ∧ r = m.emptyPosition.1 ∧
             onSegment m.emptyPosition.2 c y then
           getCell m.board x (y + stepToward m.emptyPosition.2 c)
         else if y = c ∧ c = m.emptyPosition.2 ∧
             onSegment m.emptyPosition.1 r x then
           getCell m.board (x + stepToward m.emptyPosition.1 r) y
         else getCell m.board x y) := by
    intro x y hv'
    rw [isValidPosition_iff] at hv'
    obtain ⟨hx0, hx1, hy0, hy1⟩ := hv'
    have hstep : stepToward m.emptyPosition.2 c = -1 := by
      rw [stepToward, if_neg (by omega)]
    rw [hboard, getCell, if_pos ⟨hx0, hy0⟩, getCellN]
    by_cases hxr : x.toNat = rN
    · rw [hxr, getD_set_eq b rN newRow [] (by omega)]
      have hxwr : x = r := by omega
      by_cases hyzone3 : y.toNat = cN
      · rw [if_pos ⟨hxwr, by omega⟩, hyzone3]
        exact hval_c
      · by_cases hyzone1 : y.toNat < cN
        · rw [if_neg (by omega), if_neg (by
            simp only [onSegment]
            omega), if_neg (by
            simp only [onSegment]
            omega)]
          rw [hval_A y.toNat hyzone1, getCell, if_pos ⟨hx0, hy0⟩, getCellN]
          rw [hxr]
        · by_cases hyzone2 : y.toNat ≤ ecN
          · rw [if_neg (by omega), if_pos ⟨hxwr, hr, by
              simp only [onSegment]
              omega⟩]
            rw [hval_S y.toNat (by omega) hyzone2, hstep]
            rw [getCell, if_pos ⟨hx0, by omega⟩, getCellN]
            rw [hxr, show (y + -1).toNat = y.toNat - 1 by omega]
          · rw [if_neg (by omega), if_neg (by
              simp only [onSegment]
              omega), if_neg (by
              simp only [onSegment]
              omega)]
            rw [hval_C y.toNat (by omega), getCell, if_pos ⟨hx0, hy0⟩,
              getCellN]
            rw [hxr]
    · have hxwr : ¬ x = r := by omega
      rw [getD_set_ne b rN x.toNat newRow [] (fun h => hxr h.symm)]
      rw [if_neg (by tauto), if_neg (by tauto), if_neg (by
        simp only [onSegment]
        omega)]
      rw [getCell, if_pos ⟨hx0, hy0⟩, getCellN]
  refine ⟨?_, ?_, ?_, ?_, ?_⟩
  · rw [hmove]
  · rw [hmove]; exact hdim
  · rw [hmove]; exact hemp
  · rw [hmove]; exact hWF
  · intro x y hv'
    rw [hmove]
    exact hpoint x y hv'

/-- `getD` through a `map` over `List.range`. -/
theorem getD_map_range {α : Type} (f : Nat → α) (k i : Nat) (d : α)
    (h : i < k) : ((List.range k).map f).getD i d = f i := by
  have hlt : i < ((List.range k).map f).length := by
    simp only [List.length_map, List.length_range]
    omega
  rw [List.getD_eq_getElem?_getD, List.getElem?_eq_getElem hlt]
  simp

/-- Splitting a rectangular board around the block of rows
`[erN, erN + k]`. -/
theorem board_block_decomp (b : Board) (n erN k : Nat) (hlen : b.length = n)
    (hend : erN + k < n) :
    b = b.take erN ++
      ((b.getD erN [] ::
        (List.range k).map (fun i => b.getD (erN + (i + 1)) [])) ++
        b.drop (erN + k + 1)) := by
  conv_lhs => rw [← List.take_append_drop erN b]
  congr 1
  conv_lhs => rw [← List.take_append_drop (k + 1) (b.drop erN)]
  rw [List.drop_drop]
  congr 1
  rw [← range_map_getD b [] erN (k + 1) (by omega)]
  rw [List.range_succ_eq_map, List.map_cons, List.map_map]
  congr 1

/-- `MoveSpec` in the downward column branch (`c = emptyCol`,
`emptyRow < r`). -/
theorem moveSpec_col_down (m : PuzzleModel) (r c : Int) (hwf : WF m)
    (hner : ¬ r = m.emptyPosition.1) (hc : c = m.emptyPosition.2)
    (hltr : m.emptyPosition.1 < r)
    (hv : isValidPosition m r c = true) : MoveSpec m r c := by
  obtain ⟨hlen, hrows, hperm, her0, her1, hec0, hec1, hzero⟩ := hwf
  rw [isValidPosition_iff] at hv
  obtain ⟨hr0, hr1, hc0, hc1⟩ := hv
  have hcan : canMoveTile m r c = true := by
    rw [canMoveTile_iff]
    exact ⟨⟨hr0, hr1, hc0, hc1⟩, Or.inr hc⟩
  have hmove : moveTile m r c = (true, shiftColumn m c r) := by
    rw [moveTile, if_neg (by simp [hcan]), if_neg hner, if_pos hc]
  set n := m.dimension with hn
  set b := m.board with hb
  set rN := r.toNat with hrN
  set cN := c.toNat with hcN
  set erN := m.emptyPosition.1.toNat with herN
  have hrcast : (rN : Int) = r := Int.toNat_of_nonneg hr0
  have hccast : (cN : Int) = c := Int.toNat_of_nonneg hc0
  have hercast : (erN : Int) = m.emptyPosition.1 := Int.toNat_of_nonneg her0
  have hrNn : rN < n := by omega
  have hcNn : cN < n := by omega
  have herNlt : erN < rN := by omega
  set k := rN - erN with hk
  set mapRows := (List.range k).map
    (fun i => (b.getD (erN + i) []).set cN
      ((b.getD (erN + i + 1) []).getD cN 0)) with hMR
  set rowTarget := (b.getD rN []).set cN 0 with hRT
  set newBoard := b.take erN ++ (mapRows ++ (rowTarget :: b.drop (rN + 1)))
    with hNB
  have hboard : (shiftColumn m c r).board = newBoard := by
    simp only [shiftColumn]
    rw [if_pos hltr]
    rw [show (r - m.emptyPosition.1).natAbs = k by omega]
    rw [← hrcast, ← hccast, ← hercast]
    exact colShift_down b n erN cN rN hlen (by omega) hrNn herNlt
  have hdim : (shiftColumn m c r).dimension = n := by
    simp only [shiftColumn]
  have hemp : (shiftColumn m c r).emptyPosition = (r, c) := by
    simp only [shiftColumn]
  -- the old empty cell holds 0
  have hE0 : (b.getD erN []).getD cN 0 = 0 := by
    rw [getCell, if_pos ⟨her0, hec0⟩, getCellN] at hzero
    rw [hb]
    rw [show m.emptyPosition.1.toNat = erN from rfl,
      show m.emptyPosition.2.toNat = cN by omega] at hzero
    exact hzero
  -- lengths
  have htakelen : (b.take erN).length = erN := by
    rw [List.length_take]; omega
  have hmaplen : mapRows.length = k := by
    rw [hMR, List.length_map, List.length_range]
  have hrowlen : ∀ i : Nat, i < n → (b.getD i []).length = n :=
    fun i h => row_length b n hlen hrows i h
  -- row extraction from the new board
  have hBat1 : ∀ xN : Nat, xN < erN → newBoard.getD xN [] = b.getD xN [] := by
    intro xN hx
    rw [hNB, getD_append_lt _ _ _ _ (by omega), getD_take _ _ _ _ (by omega)]
  have hBat2 : ∀ xN : Nat, erN ≤ xN → xN < rN →
      newBoard.getD xN [] = (b.getD xN []).set cN
        ((b.getD (xN + 1) []).getD cN 0) := by
    intro xN hx1 hx2
    have e : erN + (xN - erN) = xN := by omega
    rw [hNB, List.getD_append_right _ _ _ _ (by omega), htakelen,
      getD_append_lt _ _ _ _ (by omega), hMR,
      getD_map_range _ _ _ _ (by omega), e]
  have hBat3 : newBoard.getD rN [] = rowTarget := by
    rw [hNB, List.getD_append_right _ _ _ _ (by omega), htakelen,
      List.getD_append_right _ _ _ _ (by omega), hmaplen,
      show rN - erN - k = 0 by omega, List.getD_cons_zero]
  have hBat4 : ∀ xN : Nat, rN < xN → newBoard.getD xN [] = b.getD xN [] := by
    intro xN hx
    rw [hNB, List.getD_append_right _ _ _ _ (by omega), htakelen,
      List.getD_append_right _ _ _ _ (by omega), hmaplen,
      show xN - erN - k = (xN - rN - 1) + 1 by omega, List.getD_cons_succ,
      getD_drop]
    congr 1
    omega
  -- permutation
  have hchain : chainPull cN (b.getD erN [])
      ((List.range k).map (fun i => b.getD (erN + (i + 1)) [])) =
      mapRows ++ [rowTarget] := by
    have h1 := chainPull_eq_map cN k (fun i => b.getD (erN + i) [])
    simp only [Nat.add_zero] at h1
    rw [show erN + k = rN by omega] at h1
    rw [h1]
    rfl
  have hbdecomp := board_block_decomp b n erN k hlen (by omega)
  have hpermmid : List.Perm (mapRows ++ [rowTarget]).flatten
      ((b.getD erN [] ::
        (List.range k).map (fun i => b.getD (erN + (i + 1)) [])).flatten) := by
    rw [← hchain]
    refine chainPull_perm cN _ _ (by rw [hrowlen erN (by omega)]; omega) ?_ hE0
    intro row hrow
    rw [List.mem_map] at hrow
    obtain ⟨i, hi, hrowe⟩ := hrow
    rw [List.mem_range] at hi
    rw [← hrowe, hrowlen (erN + (i + 1)) (by omega)]
    omega
  have hWFperm : List.Perm newBoard.flatten b.flatten := by
    have e_new : newBoard.flatten = (b.take erN).flatten ++
        ((mapRows ++ [rowTarget]).flatten ++ (b.drop (rN + 1)).flatten) := by
      rw [hNB]
      simp only [List.flatten_append, List.flatten_cons, List.flatten_nil,
        List.append_nil, List.append_assoc]
    have e_old : b.flatten = (b.take erN).flatten ++
        ((b.getD erN [] ::
          (List.range k).map (fun i => b.getD (erN + (i + 1)) [])).flatten ++
          (b.drop (rN + 1)).flatten) := by
      conv_lhs => rw [hbdecomp]
      rw [show erN + k + 1 = rN + 1 by omega]
      simp only [List.flatten_append, List.flatten_cons, List.append_assoc]
    rw [e_new, e_old]
    exact List.Perm.append_left _ (List.Perm.append_right _ hpermmid)
  have hNBlen : newBoard.length = n := by
    rw [hNB]
    simp only [List.length_append, List.length_cons, List.length_drop]
    rw [htakelen, hmaplen]
    omega
  have hWF : WF (shiftColumn m c r) := by
    refine ⟨?_, ?_, ?_, ?_, ?_, ?_, ?_, ?_⟩
    · rw [hboard, hdim, hNBlen]
    · intro row hrow
      rw [hboard] at hrow
      rw [hdim]
      rw [hNB] at hrow
      rcases List.mem_append.mp hrow with h | h
      · exact hrows row (List.mem_of_mem_take h)
      · rcases List.mem_append.mp h with h2 | h2
        · rw [hMR, List.mem_map] at h2
          obtain ⟨i, hi, he⟩ := h2
          rw [List.mem_range] at hi
          rw [← he, List.length_set]
          exact hrowlen (erN + i) (by omega)
        · rcases List.mem_cons.mp h2 with h3 | h3
          · rw [h3, hRT, List.length_set]
            exact hrowlen rN (by omega)
          · exact hrows row (List.mem_of_mem_drop h3)
    · rw [hboard, hdim]
      exact hWFperm.trans hperm
    · rw [hemp]; exact hr0
    · rw [hemp, hdim]; exact hr1
    · rw [hemp]; exact hc0
    · rw [hemp, hdim]; exact hc1
    · rw [hemp, hboard]
      show getCell newBoard r c = 0
      rw [getCell, if_pos ⟨hr0, hc0⟩, getCellN, hBat3, hRT]
      rw [getD_set_eq _ _ _ _ (by rw [hrowlen rN (by omega)]; omega)]
  have hpoint : ∀ x y : Int, isValidPosition m x y = true →
      getCell (shiftColumn m c r).board x y =
        (if x = r ∧ y = c then 0
         else if x = r ∧ r = m.emptyPosition.1 ∧
             onSegment m.emptyPosition.2 c y then
           getCell m.board x (y + stepToward m.emptyPosition.2 c)
         else if y = c ∧ c = m.emptyPosition.2 ∧
             onSegment m.emptyPosition.1 r x then
           getCell m.board (x + stepToward m.emptyPosition.1 r) y
         else getCell m.board x y) := by
    intro x y hv'
    rw [isValidPosition_iff] at hv'
    obtain ⟨hx0, hx1, hy0, hy1⟩ := hv'
    have hstep : stepToward m.emptyPosition.1 r = 1 := by
      rw [stepToward, if_pos hltr]
    rw [hboard, getCell, if_pos ⟨hx0, hy0⟩, getCellN]
    by_cases hxz1 : x.toNat < erN
    · rw [hBat1 x.toNat hxz1]
      rw [if_neg (by omega), if_neg (by tauto), if_neg (by
        simp only [onSegment]
        omega)]
      rw [getCell, if_pos ⟨hx0, hy0⟩, getCellN]
    · by_cases hxz2 : x.toNat < rN
      · rw [hBat2 x.toNat (by omega) hxz2]
        by_cases hyc : y.toNat = cN
        · rw [if_neg (by omega), if_neg (by tauto), if_pos ⟨by omega, hc, by
            simp only [onSegment]
            omega⟩]
          rw [hyc, getD_set_eq _ _ _ _ (by
            rw [hrowlen x.toNat (by omega)]; omega)]
          rw [hstep, getCell, if_pos ⟨by omega, hy0⟩, getCellN]
          rw [show (x + 1).toNat = x.toNat + 1 by omega, hyc]
        · rw [if_neg (by omega), if_neg (by tauto), if_neg (by omega)]
          rw [getD_set_ne _ _ _ _ _ (fun h => hyc h.symm)]
          rw [getCell, if_pos ⟨hx0, hy0⟩, getCellN]
      · by_cases hxz3 : x.toNat = rN
        · rw [hxz3, hBat3, hRT]
          by_cases hyc : y.toNat = cN
          · rw [if_pos ⟨by omega, by omega⟩, hyc]
            rw [getD_set_eq _ _ _ _ (by
              rw [hrowlen rN (by omega)]; omega)]
          · rw [if_neg (by omega), if_neg (by tauto), if_neg (by omega)]
            rw [getD_set_ne _ _ _ _ _ (fun h => hyc h.symm)]
            rw [getCell, if_pos ⟨hx0, hy0⟩, getCellN, hxz3]
        · rw [hBat4 x.toNat (by omega)]
          rw [if_neg (by omega), if_neg (by tauto), if_neg (by
            simp only [onSegment]
            omega)]
          rw [getCell, if_pos ⟨hx0, hy0⟩, getCellN]
  refine ⟨?_, ?_, ?_, ?_, ?_⟩
  · rw [hmove]
  · rw [hmove]; exact hdim
  · rw [hmove]; exact hemp
  · rw [hmove]; exact hWF
  · intro x y hv'
    rw [hmove]
    exact hpoint x y hv'

/-- `getLastD` of a nonempty `map` over `List.range`. -/
theorem getLastD_map_range {α : Type} (f : Nat → α) (k : Nat) (d : α)
    (h : 0 < k) : ((List.range k).map f).getLastD d = f (k - 1) := by
  obtain ⟨k', rfl⟩ : ∃ k', k = k' + 1 := ⟨k - 1, by omega⟩
  rw [List.range_succ, List.map_append, List.map_cons, List.map_nil,
    List.getLastD_concat]
  congr 1

/-- `MoveSpec` in the upward column branch (`c = emptyCol`,
`r < emptyRow`). -/
theorem moveSpec_col_up (m : PuzzleModel) (r c : Int) (hwf : WF m)
    (hner : ¬ r = m.emptyPosition.1) (hc : c = m.emptyPosition.2)
    (hgtr : r < m.emptyPosition.1)
    (hv : isValidPosition m r c = true) : MoveSpec m r c := by
  obtain ⟨hlen, hrows, hperm, her0, her1, hec0, hec1, hzero⟩ := hwf
  rw [isValidPosition_iff] at hv
  obtain ⟨hr0, hr1, hc0, hc1⟩ := hv
  have hcan : canMoveTile m r c = true := by
    rw [canMoveTile_iff]
    exact ⟨⟨hr0, hr1, hc0, hc1⟩, Or.inr hc⟩
  have hmove : moveTile m r c = (true, shiftColumn m c r) := by
    rw [moveTile, if_neg (by simp [hcan]), if_neg hner, if_pos hc]
  set n := m.dimension with hn
  set b := m.board with hb
  set rN := r.toNat with hrN
  set cN := c.toNat with hcN
  set erN := m.emptyPosition.1.toNat with herN
  have hrcast : (rN : Int) = r := Int.toNat_of_nonneg hr0
  have hccast : (cN : Int) = c := Int.toNat_of_nonneg hc0
  have hercast : (erN : Int) = m.emptyPosition.1 := Int.toNat_of_nonneg her0
  have hrNn : rN < n := by omega
  have hcNn : cN < n := by omega
  have herNn : erN < n := by omega
  have hrNlt : rN < erN := by omega
  set k := erN - rN with hk
  set mapRows := (List.range k).map
    (fun j => (b.getD (rN + j + 1) []).set cN
      ((b.getD (rN + j) []).getD cN 0)) with hMR
  set rowTarget := (b.getD rN []).set cN 0 with hRT
  set newBoard := b.take rN ++ (rowTarget :: (mapRows ++ b.drop (erN + 1)))
    with hNB
  have hboard : (shiftColumn m c r).board = newBoard := by
    simp only [shiftColumn]
    rw [if_neg (by omega : ¬ m.emptyPosition.1 < r)]
    rw [show (r - m.emptyPosition.1).natAbs = k by omega]
    rw [← hrcast, ← hccast, ← hercast]
    exact colShift_up b n erN cN rN hlen herNn hrNn hrNlt
  have hdim : (shiftColumn m c r).dimension = n := by
    simp only [shiftColumn]
  have hemp : (shiftColumn m c r).emptyPosition = (r, c) := by
    simp only [shiftColumn]
  have hE0 : (b.getD erN []).getD cN 0 = 0 := by
    rw [getCell, if_pos ⟨her0, hec0⟩, getCellN] at hzero
    rw [hb]
    rw [show m.emptyPosition.1.toNat = erN from rfl,
      show m.emptyPosition.2.toNat = cN by omega] at hzero
    exact hzero
  have htakelen : (b.take rN).length = rN := by
    rw [List.length_take]; omega
  have hmaplen : mapRows.length = k := by
    rw [hMR, List.length_map, List.length_range]
  have hrowlen : ∀ i : Nat, i < n → (b.getD i []).length = n :=
    fun i h => row_length b n hlen hrows i h
  have hBat1 : ∀ xN : Nat, xN < rN → newBoard.getD xN [] = b.getD xN [] := by
    intro xN hx
    rw [hNB, getD_append_lt _ _ _ _ (by omega), getD_take _ _ _ _ (by omega)]
  have hBat2 : newBoard.getD rN [] = rowTarget := by
    rw [hNB, List.getD_append_right _ _ _ _ (by omega), htakelen,
      show rN - rN = 0 by omega, List.getD_cons_zero]
  have hBat3 : ∀ xN : Nat, rN < xN → xN ≤ erN →
      newBoard.getD xN [] = (b.getD xN []).set cN
        ((b.getD (xN - 1) []).getD cN 0) := by
    intro xN hx1 hx2
    rw [hNB, List.getD_append_right _ _ _ _ (by omega), htakelen,
      show xN - rN = (xN - rN - 1) + 1 by omega, List.getD_cons_succ,
      getD_append_lt _ _ _ _ (by omega), hMR,
      getD_map_range _ _ _ _ (by omega),
      show rN + (xN - rN - 1) = xN - 1 by omega,
      show xN - 1 + 1 = xN by omega]
  have hBat4 : ∀ xN : Nat, erN < xN → newBoard.getD xN [] = b.getD xN [] := by
    intro xN hx
    rw [hNB, List.getD_append_right _ _ _ _ (by omega), htakelen,
      show xN - rN = (xN - rN - 1) + 1 by omega, List.getD_cons_succ,
      List.getD_append_right _ _ _ _ (by omega), hmaplen,
      getD_drop]
    congr 1
    omega
  -- permutation
  have hchain : chainWrite cN (b.getD rN [])
      ((List.range k).map (fun j => b.getD (rN + (j + 1)) [])) =
      mapRows := by
    have h1 := chainWrite_eq_map cN k (fun j => b.getD (rN + j) [])
    simp only [Nat.add_zero] at h1
    rw [h1]
    rfl
  have hbdecomp := board_block_decomp b n rN k hlen (by omega)
  have hlast : (((List.range k).map
      (fun j => b.getD (rN + (j + 1)) [])).getLastD (b.getD rN [])).getD
      cN 0 = 0 := by
    rw [getLastD_map_range _ _ _ (by omega),
      show rN + (k - 1 + 1) = erN by omega]
    exact hE0
  have hpermmid : List.Perm (rowTarget :: mapRows).flatten
      ((b.getD rN [] ::
        (List.range k).map (fun j => b.getD (rN + (j + 1)) [])).flatten) := by
    rw [← hchain]
    refine chainWrite_perm cN _ _ (by rw [hrowlen rN (by omega)]; omega) ?_
      hlast
    intro row hrow
    rw [List.mem_map] at hrow
    obtain ⟨j, hj, hrowe⟩ := hrow
    rw [List.mem_range] at hj
    rw [← hrowe, hrowlen (rN + (j + 1)) (by omega)]
    omega
  have hWFperm : List.Perm newBoard.flatten b.flatten := by
    have e_new : newBoard.flatten = (b.take rN).flatten ++
        ((rowTarget :: mapRows).flatten ++ (b.drop (erN + 1)).flatten) := by
      rw [hNB]
      simp only [List.flatten_append, List.flatten_cons, List.append_assoc]
    have e_old : b.flatten = (b.take rN).flatten ++
        ((b.getD rN [] ::
          (List.range k).map (fun j => b.getD (rN + (j + 1)) [])).flatten ++
          (b.drop (erN + 1)).flatten) := by
      conv_lhs => rw [hbdecomp]
      rw [show rN + k + 1 = erN + 1 by omega]
      simp only [List.flatten_append, List.flatten_cons, List.append_assoc]
    rw [e_new, e_old]
    exact List.Perm.append_left _ (List.Perm.append_right _ hpermmid)
  have hNBlen : newBoard.length = n := by
    rw [hNB]
    simp only [List.length_append, List.length_cons, List.length_drop]
    rw [htakelen, hmaplen]
    omega
  have hWF : WF (shiftColumn m c r) := by
    refine ⟨?_, ?_, ?_, ?_, ?_, ?_, ?_, ?_⟩
    · rw [hboard, hdim, hNBlen]
    · intro row hrow
      rw [hboard] at hrow
      rw [hdim]
      rw [hNB] at hrow
      rcases List.mem_append.mp hrow with h | h
      · exact hrows row (List.mem_of_mem_take h)
      · rcases List.mem_cons.mp h with h2 | h2
        · rw [h2, hRT, List.length_set]
          exact hrowlen rN (by omega)
        · rcases List.mem_append.mp h2 with h3 | h3
          · rw [hMR, List.mem_map] at h3
            obtain ⟨j, hj, he⟩ := h3
            rw [List.mem_range] at hj
            rw [← he, List.length_set]
            exact hrowlen (rN + j + 1) (by omega)
          · exact hrows row (List.mem_of_mem_drop h3)
    · rw [hboard, hdim]
      exact hWFperm.trans hperm
    · rw [hemp]; exact hr0
    · rw [hemp, hdim]; exact hr1
    · rw [hemp]; exact hc0
    · rw [hemp, hdim]; exact hc1
    · rw [hemp, hboard]
      show getCell newBoard r c = 0
      rw [getCell, if_pos ⟨hr0, hc0⟩, getCellN, hBat2, hRT]
      rw [getD_set_eq _ _ _ _ (by rw [hrowlen rN (by omega)]; omega)]
  have hpoint : ∀ x y : Int, isValidPosition m x y = true →
      getCell (shiftColumn m c r).board x y =
        (if x = r ∧ y = c then 0
         else if x = r ∧ r = m.emptyPosition.1 ∧
             onSegment m.emptyPosition.2 c y then
           getCell m.board x (y + stepToward m.emptyPosition.2 c)
         else if y = c ∧ c = m.emptyPosition.2 ∧
             onSegment m.emptyPosition.1 r x then
           getCell m.board (x + stepToward m.emptyPosition.1 r) y
         else getCell m.board x y) := by
    intro x y hv'
    rw [isValidPosition_iff] at hv'
    obtain ⟨hx0, hx1, hy0, hy1⟩ := hv'
    have hstep : stepToward m.emptyPosition.1 r = -1 := by
      rw [stepToward, if_neg (by omega)]
    rw [hboard, getCell, if_pos ⟨hx0, hy0⟩, getCellN]
    by_cases hxz1 : x.toNat < rN
    · rw [hBat1 x.toNat hxz1]
      rw [if_neg (by omega), if_neg (by tauto), if_neg (by
        simp only [onSegment]
        omega)]
      rw [getCell, if_pos ⟨hx0, hy0⟩, getCellN]
    · by_cases hxz2 : x.toNat = rN
      · rw [hxz2, hBat2, hRT]
        by_cases hyc : y.toNat = cN
        · rw [if_pos ⟨by omega, by omega⟩, hyc]
          rw [getD_set_eq _ _ _ _ (by
            rw [hrowlen rN (by omega)]; omega)]
        · rw [if_neg (by omega), if_neg (by tauto), if_neg (by omega)]
          rw [getD_set_ne _ _ _ _ _ (fun h => hyc h.symm)]
          rw [getCell, if_pos ⟨hx0, hy0⟩, getCellN, hxz2]
      · by_cases hxz3 : x.toNat ≤ erN
        · rw [hBat3 x.toNat (by omega) hxz3]
          by_cases hyc : y.toNat = cN
          · rw [if_neg (by omega), if_neg (by tauto), if_pos ⟨by omega, hc, by
              simp only [onSegment]
              omega⟩]
            rw [hyc, getD_set_eq _ _ _ _ (by
              rw [hrowlen x.toNat (by omega)]; omega)]
            rw [hstep, getCell, if_pos ⟨by omega, hy0⟩, getCellN]
            rw [show (x + -1).toNat = x.toNat - 1 by omega, hyc]
          · rw [if_neg (by omega), if_neg (by tauto), if_neg (by omega)]
            rw [getD_set_ne _ _ _ _ _ (fun h => hyc h.symm)]
            rw [getCell, if_pos ⟨hx0, hy0⟩, getCellN]
        · rw [hBat4 x.toNat (by omega)]
          rw [if_neg (by omega), if_neg (by tauto), if_neg (by
            simp only [onSegment]
            omega)]
          rw [getCell, if_pos ⟨hx0, hy0⟩, getCellN]
  refine ⟨?_, ?_, ?_, ?_, ?_⟩
  · rw [hmove]
  · rw [hmove]; exact hdim
  · rw [hmove]; exact hemp
  · rw [hmove]; exact hWF
  · intro x y hv'
    rw [hmove]
    exact hpoint x y hv'

/-- C4: on a well-formed board, for every legal move target — in bounds,
sharing a row or column with the empty cell, and distinct from it —
`moveTile` returns `true`, preserves the Board invariant (`WF`: square
shape, values a permutation of `0..n²-1`, cached empty position
consistent), updates `emptyPosition` to exactly the applied target, and
transforms the cells as specified: the target becomes 0, each cell from
the old empty cell toward the target takes the value of its neighbour
one step closer to the target (equivalently, each tile strictly between,
and the clicked tile, move one step toward the old empty cell), and all
other cells are unchanged (`MoveSpec`). -/
theorem C4_moveTile_legal (m : PuzzleModel) (r c : Int) (hwf : WF m)
    (hv : isValidPosition m r c = true)
    (hline : r = m.emptyPosition.1 ∨ c = m.emptyPosition.2)
    (hne : (r, c) ≠ m.emptyPosition) : MoveSpec m r c := by
  rcases hline with hr | hc
  · have hcne : c ≠ m.emptyPosition.2 := by
      intro he
      exact hne (by rw [hr, he])
    rcases lt_or_gt_of_ne hcne with h | h
    · exact moveSpec_row_left m r c hwf hr h hv
    · exact moveSpec_row_right m r c hwf hr h hv
  · by_cases hr : r = m.emptyPosition.1
    · exact absurd (by rw [hr, hc]) hne
    · rcases lt_or_gt_of_ne hr with h | h
      · exact moveSpec_col_up m r c hwf hr hc h hv
      · exact moveSpec_col_down m r c hwf hr hc h hv

/-- C4 witness: the example move of the spec — on a solved 3×3 board,
clicking `(2, 0)` (same row as the empty cell `(2, 2)`). -/
theorem C4_moveTile_legal_witness : MoveSpec (PuzzleModel.init 3) 2 0 :=
  C4_moveTile_legal (PuzzleModel.init 3) 2 0 (by decide) (by decide)
    (by decide) (by decide)

end SlidingPuzzle
